import Mathlib

/-!
Verification of the core logic of the cocoapods-package-readme-mcp-server
repository: the README parser (src/services/readme-parser.ts) and the
in-memory TTL cache (src/services/cache.ts).  JavaScript strings are
modelled as lists of characters, JavaScript `Date.now()` as an explicit
`now : Nat` argument, and the insertion-ordered `Map` as an association
list with unique keys.
-/

/-- JavaScript strings, modelled as lists of characters (ASCII fragment). -/
abbrev Str := List Char

/-- Embed a Lean string literal as a `Str`. -/
def S (s : String) : Str := s.data

/-- The character class of the JavaScript regex `\s` (ASCII range). -/
def isWs (c : Char) : Bool :=
  c = ' ' || c = '\t' || c = '\n' || c = '\r' || c = '\x0b' || c = '\x0c'

/-- The character class of the JavaScript regex `\w`: `[A-Za-z0-9_]`. -/
def isWordChar (c : Char) : Bool :=
  ('a' ≤ c && c ≤ 'z') || ('A' ≤ c && c ≤ 'Z') || ('0' ≤ c && c ≤ '9') || c = '_'

/-- The character class of the JavaScript regex `\d`: `[0-9]`. -/
def isDigitChar (c : Char) : Bool := '0' ≤ c && c ≤ '9'

/-- ASCII lower-casing, as used by JavaScript `toLowerCase` on ASCII text. -/
def lowerChar (c : Char) : Char :=
  if 'A' ≤ c && c ≤ 'Z' then Char.ofNat (c.toNat + 32) else c

/-- `String.prototype.trim()`: strip leading and trailing whitespace. -/
def trimStr (l : Str) : Str :=
  ((l.dropWhile isWs).reverse.dropWhile isWs).reverse

/-- `String.prototype.split('\n')`. -/
def splitLines : Str → List Str
  | [] => [[]]
  | c :: cs =>
    if c = '\n' then [] :: splitLines cs
    else
      match splitLines cs with
      | [] => [[c]]
      | line :: rest => (c :: line) :: rest

/-- Join lines with `'\n'`, the inverse of `splitLines` used by
`sectionContent.join('\n')`. -/
def joinLines : List Str → Str
  | [] => []
  | [line] => line
  | line :: rest => line ++ '\n' :: joinLines rest

/- ## The in-memory TTL cache (src/services/cache.ts, `MemoryCache`) -/

/-- One stored cache entry (`CacheEntry<T>`): payload, creation timestamp
(the spec calls it `createdAt`), and time-to-live. -/
structure CacheEntry (α : Type) where
  data : α
  timestamp : Nat
  ttl : Nat
deriving DecidableEq, Repr

/-- The cache state: the insertion-ordered key/entry map together with the
configuration fixed at construction.  `maxSize` is an `Int` because the
JavaScript constructor stores a negative `options.maxSize` unchanged. -/
structure MemoryCache (α : Type) where
  cache : List (Str × CacheEntry α)
  defaultTtl : Nat
  maxSize : Int
deriving DecidableEq, Repr

/-- JavaScript `x || d` for an optional number `x` (0 is falsy). -/
def jsOrNat : Option Nat → Nat → Nat
  | some v, d => if v = 0 then d else v
  | none, d => d

/-- JavaScript `x || d` for an optional integer `x` (0 is falsy). -/
def jsOrInt : Option Int → Int → Int
  | some v, d => if v = 0 then d else v
  | none, d => d

/-- The `MemoryCache` constructor: `defaultTtl = options.ttl || 3600000`,
`maxSize = options.maxSize || 1000`, empty store.  The source constructor
contains no validation and no throw; it always produces an instance. -/
def mkMemoryCache {α : Type} (ttl : Option Nat) (maxSize : Option Int) : MemoryCache α :=
  { cache := [], defaultTtl := jsOrNat ttl 3600000, maxSize := jsOrInt maxSize 1000 }

/-- `Map.prototype.get` on the association list. -/
def mapGet {α : Type} (k : Str) : List (Str × CacheEntry α) → Option (CacheEntry α)
  | [] => none
  | p :: rest => if p.1 = k then some p.2 else mapGet k rest

/-- Whether the map holds key `k` (`Map.prototype.has` on the raw store). -/
def hasKey {α : Type} (k : Str) : List (Str × CacheEntry α) → Bool
  | [] => false
  | p :: rest => if p.1 = k then true else hasKey k rest

/-- `Map.prototype.set`: replace in place when the key exists (keeping
insertion order), else append. -/
def mapSet {α : Type} (k : Str) (e : CacheEntry α) (l : List (Str × CacheEntry α)) :
    List (Str × CacheEntry α) :=
  if hasKey k l then l.map (fun p => if p.1 = k then (k, e) else p) else l ++ [(k, e)]

/-- `Map.prototype.delete`: remove the entry stored under `k`. -/
def mapDelete {α : Type} (k : Str) : List (Str × CacheEntry α) → List (Str × CacheEntry α)
  | [] => []
  | p :: rest => if p.1 = k then mapDelete k rest else p :: mapDelete k rest

/-- The scan inside `evictOldest`: walk the entries in insertion order,
starting from `oldestTime = Date.now()`, remembering the key of each entry
whose `timestamp` is strictly smaller than the running minimum. -/
def selectOldestGo {α : Type} (best : Option Str) (t : Nat) :
    List (Str × CacheEntry α) → Option Str
  | [] => best
  | (k, e) :: rest =>
    if e.timestamp < t then selectOldestGo (some k) e.timestamp rest
    else selectOldestGo best t rest

/-- `MemoryCache.evictOldest`: delete the selected key.  The source guards
the deletion with `if (oldestKey)`, a JavaScript truthiness check that is
false both for the initial `null` and for an empty-string key, so a
selected key `""` is not deleted. -/
def MemoryCache.evictOldest {α : Type} (now : Nat) (c : MemoryCache α) : MemoryCache α :=
  match selectOldestGo none now c.cache with
  | some k => if k.isEmpty then c else { c with cache := mapDelete k c.cache }
  | none => c

/-- `MemoryCache.set`: evict first when `size >= maxSize`, then store the
entry with `timestamp = now` and `ttl = given || defaultTtl`. -/
def MemoryCache.set {α : Type} (now : Nat) (k : Str) (v : α) (ttl : Option Nat)
    (c : MemoryCache α) : MemoryCache α :=
  let c1 := if (c.cache.length : Int) ≥ c.maxSize then MemoryCache.evictOldest now c else c
  { c1 with cache := mapSet k ⟨v, now, jsOrNat ttl c.defaultTtl⟩ c1.cache }

/-- `MemoryCache.get`: lazy expiry — a stale entry is deleted and reported
as a miss; a live entry is returned with the state untouched. -/
def MemoryCache.get {α : Type} (now : Nat) (k : Str) (c : MemoryCache α) :
    Option α × MemoryCache α :=
  match mapGet k c.cache with
  | none => (none, c)
  | some e =>
    if e.timestamp + e.ttl < now then (none, { c with cache := mapDelete k c.cache })
    else (some e.data, c)

/-- `MemoryCache.has`: same lazy-expiry check as `get`, returning a Bool. -/
def MemoryCache.has {α : Type} (now : Nat) (k : Str) (c : MemoryCache α) :
    Bool × MemoryCache α :=
  match mapGet k c.cache with
  | none => (false, c)
  | some e =>
    if e.timestamp + e.ttl < now then (false, { c with cache := mapDelete k c.cache })
    else (true, c)

/-- `MemoryCache.size`. -/
def MemoryCache.size {α : Type} (c : MemoryCache α) : Nat := c.cache.length

/-- The state component of a `get`, for iterating reads. -/
def getState {α : Type} (now : Nat) (k : Str) (c : MemoryCache α) : MemoryCache α :=
  (MemoryCache.get now k c).2

/-- `n` successive `get now k` calls, tracking only the cache state. -/
def getIter {α : Type} (now : Nat) (k : Str) : Nat → MemoryCache α → MemoryCache α
  | 0, c => c
  | n + 1, c => getIter now k n (getState now k c)

/- ## The README parser (src/services/readme-parser.ts, `ReadmeParser`)

The parser's regular expressions are embedded as hand-rolled scanners.
Each scanner's doc comment names the regex it implements; lazy (`*?`)
segments are resolved to the leftmost-first occurrence of the following
literal (which coincides with the JavaScript backtracking semantics for
these patterns, since all the lazy segments of one pattern share the same
newline/end barriers, so a later first-segment choice only shrinks the
later search regions). -/

/-- Literal prefix test (`List.isPrefixOf` with decidable equality). -/
def isPre : Str → Str → Bool
  | [], _ => true
  | _ :: _, [] => false
  | p :: ps, c :: cs => if p = c then isPre ps cs else false

/-- Case-insensitive prefix test; the pattern is given in lowercase. -/
def ciPre : Str → Str → Bool
  | [], _ => true
  | _ :: _, [] => false
  | p :: ps, c :: cs => if lowerChar c = p then ciPre ps cs else false

/-- Substring test: some suffix has `pat` as a prefix. -/
def containsSub (pat : Str) : Str → Bool
  | [] => isPre pat []
  | c :: cs => isPre pat (c :: cs) || containsSub pat cs

/-- Unanchored regex search: some suffix satisfies the position matcher. -/
def anyPos (f : Str → Bool) : Str → Bool
  | [] => f []
  | c :: cs => f (c :: cs) || anyPos f cs

/-- The apostrophe character, i.e. a single quote. -/
def quoteCh : Char := Char.ofNat 39

/-- The opening curly brace character. -/
def lbraceCh : Char := Char.ofNat 123

/-- The closing curly brace character. -/
def rbraceCh : Char := Char.ofNat 125

/-- The character class `['"]`. -/
def isQuote (c : Char) : Bool := c = quoteCh || c = '"'

/-- One fenced code block captured by `extractCodeBlocks`: body, declared
language tag (possibly empty) and the character offset of the opening
fence (`match.index`). -/
structure CodeBlock where
  code : Str
  language : Str
  originalIndex : Nat
deriving DecidableEq, Repr

/-- One extracted usage example (`UsageExample` in src/types). -/
structure UsageExample where
  title : Str
  description : Option Str
  code : Str
  language : Str
deriving DecidableEq, Repr

/-- Split at the first occurrence of `stop`: returns the part before it and
the part after it, or `none` when `stop` does not occur. -/
def splitOnSub (stop : Str) : Str → Option (Str × Str)
  | [] => none
  | c :: cs =>
    if isPre stop (c :: cs) then some ([], (c :: cs).drop stop.length)
    else
      match splitOnSub stop cs with
      | some (pre, post) => some (c :: pre, post)
      | none => none

/-- Match of `CODE_BLOCK_PATTERN`, the regex
`/```(\w+)?\s*\n([\s\S]*?)\n```/g`, at the head of `l`; returns
`(language, body, rest-of-input)`.  After the three backticks the greedy
`(\w+)?` takes the maximal word run (a shorter run would leave a word
character where `\s*\n` must match, so no backtracking arises), `\s*\n`
takes the whitespace run up to its last newline (greedy), and the lazy
body runs to the first later occurrence of a newline followed by three
backticks.  When that occurrence does not exist, the only remaining
backtracking candidate is the closing fence sitting immediately at the
run's final newline (any earlier newline is followed by more whitespace,
not a backtick), which requires a second newline in the run. -/
def fenceMatchAt (l : Str) : Option (Str × Str × Str) :=
  if isPre (S "```") l then
    let r0 := l.drop 3
    let lang := r0.takeWhile isWordChar
    let r1 := r0.drop lang.length
    let w := r1.takeWhile isWs
    if w.count '\n' = 0 then none
    else
      let afterLast := (w.reverse.takeWhile (fun c => ¬ (c = '\n'))).reverse
      let tailStart := w.length - afterLast.length
      match splitOnSub (S "\n```") (r1.drop tailStart) with
      | some (content, rest) => some (lang, content, rest)
      | none =>
        if afterLast.isEmpty && 2 ≤ w.count '\n' && isPre (S "```") (r1.drop w.length) then
          let w2 := w.take (w.length - 1)
          let between := (w2.reverse.takeWhile (fun c => ¬ (c = '\n'))).reverse
          some (lang, between, r1.drop (w.length + 3))
        else none
  else none

/-- The `exec` loop of `extractCodeBlocks`: scan the text left to right,
emitting a block at each fence match and recording its character offset.
The fuel argument (instantiated with the text length) only serves to make
the recursion structural; every step consumes at least one character. -/
def extractCodeBlocksGo : Nat → Str → Nat → List CodeBlock
  | 0, _, _ => []
  | _ + 1, [], _ => []
  | fuel + 1, c :: cs, pos =>
    match fenceMatchAt (c :: cs) with
    | some (lang, body, rest) =>
      ⟨body, lang, pos⟩ :: extractCodeBlocksGo fuel rest (pos + ((c :: cs).length - rest.length))
    | none => extractCodeBlocksGo fuel cs (pos + 1)

/-- `ReadmeParser.extractCodeBlocks`. -/
def extractCodeBlocks (content : Str) : List CodeBlock :=
  extractCodeBlocksGo content.length content 0

/-- Case-insensitive prefix test against any of the given literals. -/
def startsWithAnyCI (pats : List Str) (l : Str) : Bool :=
  pats.any (fun p => ciPre p l)

/-- The noise regex `/^\d+\.\d+\.\d+/`: one digit run, a dot, a digit run,
a dot, a digit run, as a prefix. -/
def digitsDot (l : Str) : Option Str :=
  let d := l.takeWhile isDigitChar
  if d.isEmpty then none
  else
    match l.drop d.length with
    | '.' :: r => some r
    | _ => none

/-- Prefix shape `\d+\.\d+\.\d+`. -/
def versionShape (l : Str) : Bool :=
  match digitsDot l with
  | some r1 =>
    match digitsDot r1 with
    | some r2 => ¬ (r2.takeWhile isDigitChar).isEmpty
    | none => false
  | none => false

/-- The noise regex `/^https?:\/\//`. -/
def urlShape (l : Str) : Bool :=
  isPre (S "http://") l || isPre (S "https://") l

/-- The noise regex `/^[\w\s]*:[\w\s]*$/`: exactly one colon and every
other character a word character or whitespace. -/
def kvShape (l : Str) : Bool :=
  l.count ':' = 1 && l.all (fun c => c = ':' || isWordChar c || isWs c)

/-- The noise regex `/^\s*#\s*\w+\s*$/`: optional whitespace, a hash,
optional whitespace, one word run, optional trailing whitespace. -/
def commentShape (l : Str) : Bool :=
  match l.dropWhile isWs with
  | '#' :: r1 =>
    let r2 := r1.dropWhile isWs
    let wrun := r2.takeWhile isWordChar
    ¬ wrun.isEmpty && (r2.drop wrun.length).all isWs
  | _ => false

/-- The `irrelevantPatterns` chain of `isRelevantCodeBlock`, applied to the
trimmed body. -/
def noiseMatch (t : Str) : Bool :=
  startsWithAnyCI [S "version", S "changelog", S "license", S "copyright"] t ||
  versionShape t || urlShape t || kvShape t || commentShape t

/-- Shape `word\s+\w+` (case-insensitive) at the head of `l`. -/
def ciWordShape (word : Str) (l : Str) : Bool :=
  ciPre word l &&
    (let r := l.drop word.length
     let w := r.takeWhile isWs
     ¬ w.isEmpty &&
       (match r.drop w.length with
        | c :: _ => isWordChar c
        | [] => false))

/-- Shape `pod\s+['"]` (case-insensitive) at the head of `l`. -/
def podQuoteShapeAt (l : Str) : Bool :=
  ciPre (S "pod") l &&
    (let r := l.drop 3
     let w := r.takeWhile isWs
     ¬ w.isEmpty &&
       (match r.drop w.length with
        | c :: _ => isQuote c
        | [] => false))

/-- Shape `override\s+func` (case-insensitive) at the head of `l`. -/
def overrideFuncShapeAt (l : Str) : Bool :=
  ciPre (S "override") l &&
    (let r := l.drop 8
     let w := r.takeWhile isWs
     ¬ w.isEmpty && ciPre (S "func") (r.drop w.length))

/-- The `iosKeywords` scan of `isRelevantCodeBlock`: each keyword regex is
built with the `i` flag and searched anywhere in the body. -/
def hasIosKeywords (code : Str) : Bool :=
  anyPos
    (fun l =>
      ciWordShape (S "import") l || ciWordShape (S "class") l ||
      ciWordShape (S "func") l || podQuoteShapeAt l ||
      ciPre (S "cocoapods") l || ciPre (S "podfile") l || ciPre (S "podspec") l ||
      ciPre (S "uikit") l || ciPre (S "foundation") l || ciPre (S "swiftui") l ||
      ciPre (S "@iboutlet") l || ciPre (S "@ibaction") l || ciPre (S "@objc") l ||
      ciPre (S "viewdidload") l || overrideFuncShapeAt l)
    code

/-- The `relevantLanguages` allow-set. -/
def relevantLanguages : List Str :=
  [S "swift", S "objc", S "objective-c", S "ruby", S "bash", S "shell", S "json", S "plist"]

/-- `ReadmeParser.isRelevantCodeBlock`: the ordered reject/accept chain. -/
def isRelevantCodeBlock (code lang : Str) : Bool :=
  if code.isEmpty || (trimStr code).length < 10 then false
  else if noiseMatch (trimStr code) then false
  else if ¬ lang.isEmpty && relevantLanguages.contains (lang.map lowerChar) then true
  else if hasIosKeywords code then true
  else lang.isEmpty && decide (20 < code.length)

/-- The `detectLanguage` probe `/^\s*pod\s+['"]/` (case-sensitive). -/
def podfileShape (code : Str) : Bool :=
  let r := code.dropWhile isWs
  isPre (S "pod") r &&
    (let r2 := r.drop 3
     let w := r2.takeWhile isWs
     ¬ w.isEmpty &&
       (match r2.drop w.length with
        | c :: _ => isQuote c
        | [] => false))

/-- Shape `word\s+\w+` (case-sensitive) at the head of `l`. -/
def csWordShape (word : Str) (l : Str) : Bool :=
  isPre word l &&
    (let r := l.drop word.length
     let w := r.takeWhile isWs
     ¬ w.isEmpty &&
       (match r.drop w.length with
        | c :: _ => isWordChar c
        | [] => false))

/-- Shape `class\s+\w+.*\{` at the head of `l`: the brace must follow the
word run on the same line (`.` does not cross newlines). -/
def classBraceShapeAt (l : Str) : Bool :=
  isPre (S "class") l &&
    (let r := l.drop 5
     let w := r.takeWhile isWs
     ¬ w.isEmpty &&
       (match r.drop w.length with
        | c :: r3 => isWordChar c && (r3.takeWhile (fun c2 => ¬ (c2 = '\n'))).contains lbraceCh
        | [] => false))

/-- The `detectLanguage` probe
`/import\s+\w+|func\s+\w+|class\s+\w+.*\{|var\s+\w+|let\s+\w+/`. -/
def swiftShape (code : Str) : Bool :=
  anyPos
    (fun l =>
      csWordShape (S "import") l || csWordShape (S "func") l ||
      classBraceShapeAt l || csWordShape (S "var") l || csWordShape (S "let") l)
    code

/-- Shape `\*\w+`: an asterisk directly followed by a word character. -/
def starWordAt (l : Str) : Bool :=
  match l with
  | '*' :: c :: _ => isWordChar c
  | _ => false

/-- The `detectLanguage` probe
`/@interface|@implementation|@property|\*\w+|#import/`. -/
def objcShape (code : Str) : Bool :=
  anyPos
    (fun l =>
      isPre (S "@interface") l || isPre (S "@implementation") l ||
      isPre (S "@property") l || starWordAt l || isPre (S "#import") l)
    code

/-- Shape `\$\s*\w+`: a dollar sign, optional whitespace, a word char. -/
def dollarShapeAt (l : Str) : Bool :=
  match l with
  | '$' :: r =>
    (match r.dropWhile isWs with
     | c :: _ => isWordChar c
     | [] => false)
  | _ => false

/-- Shape `git\s+clone` at the head of `l`. -/
def gitCloneShapeAt (l : Str) : Bool :=
  isPre (S "git") l &&
    (let r := l.drop 3
     let w := r.takeWhile isWs
     ¬ w.isEmpty && isPre (S "clone") (r.drop w.length))

/-- The `detectLanguage` probe `/\$\s*\w+|sudo|brew|curl|git\s+clone/`. -/
def bashShape (code : Str) : Bool :=
  anyPos
    (fun l =>
      dollarShapeAt l || isPre (S "sudo") l || isPre (S "brew") l ||
      isPre (S "curl") l || gitCloneShapeAt l)
    code

/-- Shape `["'][\w-]+["']\s*:` at the head of `l`. -/
def quoteKeyColonAt (l : Str) : Bool :=
  match l with
  | c :: r =>
    isQuote c &&
      (let wrun := r.takeWhile (fun c2 => isWordChar c2 || c2 = '-')
       ¬ wrun.isEmpty &&
         (match r.drop wrun.length with
          | c2 :: r2 =>
            isQuote c2 &&
              (match r2.dropWhile isWs with
               | c3 :: _ => c3 = ':'
               | [] => false)
          | [] => false))
  | [] => false

/-- The `detectLanguage` json probe: `/^\s*\{[\s\S]*\}\s*$/` on the
trimmed body (so: first char an opening brace, last char a closing brace,
at least two characters) together with `/["'][\w-]+["']\s*:/` anywhere. -/
def jsonShape (code : Str) : Bool :=
  (let t := trimStr code
   2 ≤ t.length && t.head? = some lbraceCh && t.getLast? = some rbraceCh) &&
  anyPos quoteKeyColonAt code

/-- `ReadmeParser.detectLanguage`: fixed probe order, first match wins. -/
def detectLanguage (code : Str) : Str :=
  if podfileShape code then S "ruby"
  else if swiftShape code then S "swift"
  else if objcShape code then S "objective-c"
  else if bashShape code then S "bash"
  else if jsonShape code then S "json"
  else S "text"

/-- The heading test of `extractBlockDescription`: `/^#{1,6}\s/`. -/
def isHeading16 (t : Str) : Bool :=
  let k := (t.takeWhile (fun c => c = '#')).length
  1 ≤ k && k ≤ 6 &&
    (match t.drop k with
     | c :: _ => isWs c
     | [] => false)

/-- The per-line acceptance test of `extractBlockDescription`: trimmed
line non-empty, not a heading, longer than 10 characters. -/
def descrQualifies (line : Str) : Bool :=
  let t := trimStr line
  ¬ t.isEmpty && ¬ isHeading16 t && decide (10 < t.length)

/-- The reverse line walk of `extractBlockDescription`. -/
def extractBlockDescriptionGo : List Str → Option Str
  | [] => none
  | line :: rest =>
    if descrQualifies line then some (trimStr line)
    else extractBlockDescriptionGo rest

/-- `ReadmeParser.extractBlockDescription`: take the text strictly before
`blockIndex`, split into lines, reverse, return the first qualifying line
trimmed. -/
def extractBlockDescription (content : Str) (blockIndex : Nat) : Option Str :=
  extractBlockDescriptionGo ((splitLines (content.take blockIndex)).reverse)

/-- The specification-side description extractor, phrased as the spec
words it: of the lines before the offset taken in reverse order, the first
one that qualifies, trimmed; nothing when no line qualifies. -/
def specBlockDescription (content : Str) (blockIndex : Nat) : Option Str :=
  (((splitLines (content.take blockIndex)).reverse).find? descrQualifies).map trimStr

/-- Whitespace-run squashing, `code.replace(/\s+/g, ' ')`. -/
def squashWs : Str → Str
  | [] => []
  | [c] => [if isWs c then ' ' else c]
  | c :: c2 :: cs =>
    if isWs c then
      if isWs c2 then squashWs (c2 :: cs) else ' ' :: c2 :: squashWs cs
    else c :: squashWs (c2 :: cs)

/-- The dedup normalisation: squash whitespace, trim, lowercase. -/
def normalizeCode (code : Str) : Str :=
  (trimStr (squashWs code)).map lowerChar

/-- The dedup fingerprint `language + ":" + normalizedCode`. -/
def exampleHash (e : UsageExample) : Str :=
  e.language ++ ':' :: normalizeCode e.code

/-- The seen-set loop of `deduplicateExamples`. -/
def dedupGo : List UsageExample → List Str → List UsageExample
  | [], _ => []
  | e :: rest, seen =>
    if seen.contains (exampleHash e) then dedupGo rest seen
    else e :: dedupGo rest (exampleHash e :: seen)

/-- `ReadmeParser.deduplicateExamples`. -/
def deduplicateExamples (l : List UsageExample) : List UsageExample :=
  dedupGo l []

/-- Decimal rendering of a block index, for the numbered example titles. -/
def natToStr (n : Nat) : Str := (Nat.repr n).data

/-- One example as assembled inside `extractCodeBlocksFromSection`:
title (numbered by the block's position among all extracted blocks when
there are several), looked-up description, trimmed body, declared language
or detection fallback. -/
def mkExample (title content : Str) (total : Nat) (i : Nat) (b : CodeBlock) : UsageExample :=
  { title := if total = 1 then title else title ++ ' ' :: natToStr (i + 1)
    description := extractBlockDescription content b.originalIndex
    code := trimStr b.code
    language := if b.language.isEmpty then detectLanguage b.code else b.language }

/-- The `forEach` of `extractCodeBlocksFromSection`: keep the blocks the
relevance filter accepts, numbering by the running index over all blocks. -/
def ecbGo (title content : Str) (total : Nat) : Nat → List CodeBlock → List UsageExample
  | _, [] => []
  | i, b :: rest =>
    if isRelevantCodeBlock b.code b.language then
      mkExample title content total i b :: ecbGo title content total (i + 1) rest
    else ecbGo title content total (i + 1) rest

/-- `ReadmeParser.extractCodeBlocksFromSection`. -/
def extractCodeBlocksFromSection (title content : Str) : List UsageExample :=
  ecbGo title content (extractCodeBlocks content).length 0 (extractCodeBlocks content)

/-- The section-heading test `/^#{1,4}\s/` of `parseUsageExamples`. -/
def isHeading14 (line : Str) : Bool :=
  let k := (line.takeWhile (fun c => c = '#')).length
  1 ≤ k && k ≤ 4 &&
    (match line.drop k with
     | c :: _ => isWs c
     | [] => false)

/-- The section title: `line.replace(/^#{1,4}\s*/, '').trim()`. -/
def headingTitle (line : Str) : Str :=
  let k := (line.takeWhile (fun c => c = '#')).length
  trimStr ((line.drop (min k 4)).dropWhile isWs)

/-- The literals of `USAGE_SECTION_PATTERNS` (all four patterns have the
shape `/^#{1,4}\s*(lit|...)/i`). -/
def usageLits : List Str :=
  [S "usage", S "how to use", S "getting started", S "quick start",
   S "example", S "examples", S "installation", S "install",
   S "implementation", S "integration", S "setup", S "configuration"]

/-- `USAGE_SECTION_PATTERNS.some(pattern => pattern.test(line))`. -/
def isUsageHeading (line : Str) : Bool :=
  let k := (line.takeWhile (fun c => c = '#')).length
  1 ≤ k && k ≤ 4 &&
    startsWithAnyCI usageLits ((line.drop k).dropWhile isWs)

/-- The line loop of `parseUsageExamples`: on a heading, flush the pending
section when it was usage-classified and non-empty, then reclassify; on an
ordinary line, accumulate it only inside a usage section; flush once more
at end of input. -/
def sectionLoop : List Str → Str → Bool → List Str → List UsageExample
  | [], currentSection, inUsage, content =>
    if inUsage && ¬ content.isEmpty then
      extractCodeBlocksFromSection currentSection (joinLines content)
    else []
  | line :: rest, currentSection, inUsage, content =>
    if isHeading14 line then
      (if inUsage && ¬ content.isEmpty then
        extractCodeBlocksFromSection currentSection (joinLines content)
       else []) ++
        sectionLoop rest (headingTitle line) (isUsageHeading line) []
    else if inUsage then sectionLoop rest currentSection inUsage (content ++ [line])
    else sectionLoop rest currentSection inUsage content

/-- The section-driven phase of `parseUsageExamples` (before the global
fallback and deduplication). -/
def sectionExamples (readme : Str) : List UsageExample :=
  sectionLoop (splitLines readme) [] false []

/-- `ReadmeParser.parseUsageExamples`: guard for falsy input, the section
phase, the `"General Usage"` global fallback when the section phase found
nothing, and final deduplication. -/
def parseUsageExamples (readme : Str) : List UsageExample :=
  if readme.isEmpty then []
  else
    deduplicateExamples
      (if (sectionExamples readme).isEmpty then
        extractCodeBlocksFromSection (S "General Usage") readme
      else sectionExamples readme)

/- ## The normalizer (`ReadmeParser.cleanReadmeContent`) -/

/-- Drop through the first occurrence of `stop`; `none` if absent. -/
def dropAfter (stop : Str) : Str → Option Str
  | [] => none
  | c :: cs =>
    if isPre stop (c :: cs) then some ((c :: cs).drop stop.length)
    else dropAfter stop cs

/-- Drop through the first occurrence of `stop`, failing at a newline
(for the lazy `.*?` segments, where `.` does not cross lines). -/
def dropAfterNoNl (stop : Str) : Str → Option Str
  | [] => none
  | c :: cs =>
    if isPre stop (c :: cs) then some ((c :: cs).drop stop.length)
    else if c = '\n' then none
    else dropAfterNoNl stop cs

/-- Match of the badge regex `/\[!\[.*?\]\(.*?\)\]\(.*?\)/g` at the head
of `l`: the trigger `[![`, then lazy segments closed by `](`, `)](`, `)`.
Returns the rest of the input after the match. -/
def badgeMatchAt (l : Str) : Option Str :=
  if isPre (S "[![") l then
    match dropAfterNoNl (S "](") (l.drop 3) with
    | some r1 =>
      match dropAfterNoNl (S ")](") r1 with
      | some r2 => dropAfterNoNl (S ")") r2
      | none => none
    | none => none
  else none

/-- Match of the shields regex `/!\[.*?\]\(.*?shields\.io.*?\)/g` at the
head of `l`. -/
def shieldsMatchAt (l : Str) : Option Str :=
  if isPre (S "![") l then
    match dropAfterNoNl (S "](") (l.drop 2) with
    | some r1 =>
      match dropAfterNoNl (S "shields.io") r1 with
      | some r2 => dropAfterNoNl (S ")") r2
      | none => none
    | none => none
  else none

/-- Match of the HTML comment regex `/<!--[\s\S]*?-->/g` at the head of
`l`: the trigger, then everything lazily up to the first terminator. -/
def commentMatchAt (l : Str) : Option Str :=
  if isPre (S "<!--") l then dropAfter (S "-->") (l.drop 4)
  else none

/-- One global-replace-with-empty pass: at every position, if the matcher
fires, drop the match and continue after it, else keep the character.  The
fuel (instantiated with the input length) makes the recursion structural;
a firing matcher always consumes at least its trigger. -/
def scanRemoveF (m : Str → Option Str) : Nat → Str → Str
  | 0, l => l
  | _ + 1, [] => []
  | fuel + 1, c :: cs =>
    match m (c :: cs) with
    | some r => scanRemoveF m fuel r
    | none => c :: scanRemoveF m fuel cs

/-- `readme.replace(/\[!\[.*?\]\(.*?\)\]\(.*?\)/g, '')`. -/
def removeBadges (l : Str) : Str := scanRemoveF badgeMatchAt l.length l

/-- `readme.replace(/!\[.*?\]\(.*?shields\.io.*?\)/g, '')`. -/
def removeShields (l : Str) : Str := scanRemoveF shieldsMatchAt l.length l

/-- `readme.replace(/<!--[\s\S]*?-->/g, '')`. -/
def removeComments (l : Str) : Str := scanRemoveF commentMatchAt l.length l

/-- Collapse of one whitespace run for `/\n\s*\n\s*\n/g → '\n\n'`: inside
a maximal whitespace run holding three or more newlines, the greedy match
runs from the run's first newline through its last newline and is replaced
by two newlines; a run with fewer newlines holds no match. -/
def breakRun (w : Str) : Str :=
  if 3 ≤ w.count '\n' then
    (w.takeWhile (fun c => ¬ (c = '\n'))) ++ '\n' :: '\n' ::
      ((w.reverse.takeWhile (fun c => ¬ (c = '\n'))).reverse)
  else w

/-- `readme.replace(/\n\s*\n\s*\n/g, '\n\n')`, processed one maximal
whitespace run at a time (matches never cross a non-whitespace character).
Fuel as above. -/
def collapseF : Nat → Str → Str
  | 0, l => l
  | fuel + 1, l =>
    match l.dropWhile isWs with
    | [] => breakRun l
    | d :: r => breakRun (l.takeWhile isWs) ++ d :: collapseF fuel r

/-- The blank-line collapsing pass of `cleanReadmeContent`. -/
def collapseNewlines (l : Str) : Str := collapseF l.length l

/-- `ReadmeParser.cleanReadmeContent`: falsy guard, then the two badge
passes, the comment pass, blank-line collapsing and a final trim. -/
def cleanReadmeContent (l : Str) : Str :=
  if l.isEmpty then []
  else trimStr (collapseNewlines (removeComments (removeShields (removeBadges l))))

/- ## The installation extractor
(`ReadmeParser.extractInstallationInstructions`) -/

/-- The `InstallationInstructions` result shape: absent fields omitted. -/
structure InstallationInstructions where
  podfile : Option Str
  carthage : Option Str
  spm : Option Str
deriving DecidableEq, Repr

/-- First match of a position matcher anywhere in the text. -/
def searchMatch (m : Str → Option Str) : Str → Option Str
  | [] => m []
  | c :: cs =>
    match m (c :: cs) with
    | some r => some r
    | none => searchMatch m cs

/-- Match of `/pod\s+['"][^'"]+['"]/i` at the head of `l`, returning the
matched text. -/
def podProbeAt (l : Str) : Option Str :=
  if ciPre (S "pod") l then
    let r := l.drop 3
    let w := r.takeWhile isWs
    if w.isEmpty then none
    else
      match r.drop w.length with
      | q1 :: r2 =>
        if isQuote q1 then
          let body := r2.takeWhile (fun c => ¬ isQuote c)
          if body.isEmpty then none
          else
            match r2.drop body.length with
            | q2 :: _ => if isQuote q2 then some (l.take 3 ++ w ++ q1 :: body ++ [q2]) else none
            | [] => none
        else none
      | [] => none
  else none

/-- Match of `/github\s+['"][^'"]+\/[^'"]+['"]/i` at the head of `l`: the
quoted span runs to the first quote and must contain a slash at an
interior position. -/
def carthageProbeAt (l : Str) : Option Str :=
  if ciPre (S "github") l then
    let r := l.drop 6
    let w := r.takeWhile isWs
    if w.isEmpty then none
    else
      match r.drop w.length with
      | q1 :: r2 =>
        if isQuote q1 then
          let body := r2.takeWhile (fun c => ¬ isQuote c)
          if ((body.drop 1).dropLast).contains '/' then
            match r2.drop body.length with
            | q2 :: _ => if isQuote q2 then some (l.take 6 ++ w ++ q1 :: body ++ [q2]) else none
            | [] => none
          else none
        else none
      | [] => none
  else none

/-- Match of `/https:\/\/github\.com\/[^\s)]+/` at the head of `l`. -/
def spmProbeAt (l : Str) : Option Str :=
  if isPre (S "https://github.com/") l then
    let r := l.drop 19
    let run := r.takeWhile (fun c => ¬ isWs c && ¬ (c = ')'))
    if run.isEmpty then none else some (S "https://github.com/" ++ run)
  else none

/-- `ReadmeParser.extractInstallationInstructions` on a string input:
three independent first-match probes over the whole text. -/
def extractInstallationInstructions (readme : Str) : InstallationInstructions :=
  { podfile := searchMatch podProbeAt readme
    carthage := searchMatch carthageProbeAt readme
    spm := searchMatch spmProbeAt readme }

/-- A JavaScript value as it may arrive at the parser's entry points. -/
inductive JSVal where
  | vstr (s : Str)
  | vnull
  | vundefined
  | vnum (n : Int)
deriving DecidableEq, Repr

/-- `extractInstallationInstructions` as invoked on an arbitrary runtime
value: unlike `parseUsageExamples` and `cleanReadmeContent` the source has
no `typeof` guard, so `readme.match(...)` on a value with no `match`
method (null, undefined, a number) throws a `TypeError`. -/
def extractInstallationInstructionsJS : JSVal → Except Str InstallationInstructions
  | .vstr s => .ok (extractInstallationInstructions s)
  | _ => .error (S "TypeError: readme.match is not a function")

/-- Flatness for the blank-line collapser: every all-whitespace
contiguous segment of the text holds fewer than three newlines, so the
collapsing regex has no match anywhere. -/
def WsFlat (y : Str) : Prop :=
  ∀ u w v, y = u ++ w ++ v → (∀ c ∈ w, isWs c = true) → w.count '\n' < 3

/- ## Cache lemmas -/

theorem selectOldestGo_stable {α : Type} (t : Nat) (l : List (Str × CacheEntry α))
    (h : ∀ p ∈ l, ¬ p.2.timestamp < t) (best : Option Str) :
    selectOldestGo best t l = best := by
  induction l generalizing best with
  | nil => rfl
  | cons p rest ih =>
    obtain ⟨k, e⟩ := p
    have hp : ¬ e.timestamp < t := h (k, e) (List.mem_cons_self _ _)
    simp only [selectOldestGo, if_neg hp]
    exact ih (fun q hq => h q (List.mem_cons_of_mem _ hq)) best


theorem selectOldestGo_min {α : Type} (t : Nat) (l : List (Str × CacheEntry α))
    (h : ∃ p ∈ l, p.2.timestamp < t) :
    ∃ k₀ e₀, (k₀, e₀) ∈ l ∧ e₀.timestamp < t ∧
      (∀ p ∈ l, e₀.timestamp ≤ p.2.timestamp) ∧
      ∀ best, selectOldestGo best t l = some k₀ := by
  induction l generalizing t with
  | nil =>
    obtain ⟨p, hp, -⟩ := h
    exact absurd hp (List.not_mem_nil p)
  | cons p rest ih =>
    obtain ⟨k, e⟩ := p
    by_cases hk : e.timestamp < t
    · by_cases hrest : ∃ q ∈ rest, q.2.timestamp < e.timestamp
      · obtain ⟨k₀, e₀, hmem, hlt, hmin, hsel⟩ := ih e.timestamp hrest
        refine ⟨k₀, e₀, List.mem_cons_of_mem _ hmem, lt_trans hlt hk, ?_, ?_⟩
        · intro q hq
          rcases List.mem_cons.mp hq with hq | hq
          · rw [hq]; exact le_of_lt hlt
          · exact hmin q hq
        · intro best
          simp only [selectOldestGo, if_pos hk]
          exact hsel (some k)
      · push_neg at hrest
        refine ⟨k, e, List.mem_cons_self _ _, hk, ?_, ?_⟩
        · intro q hq
          rcases List.mem_cons.mp hq with hq | hq
          · rw [hq]
          · exact hrest q hq
        · intro best
          simp only [selectOldestGo, if_pos hk]
          exact selectOldestGo_stable e.timestamp rest
            (fun q hq => not_lt.mpr (hrest q hq)) (some k)
    · have hrest : ∃ q ∈ rest, q.2.timestamp < t := by
        rcases h with ⟨q, hq, hqlt⟩
        rcases List.mem_cons.mp hq with hq | hq
        · rw [hq] at hqlt
          exact absurd hqlt hk
        · exact ⟨q, hq, hqlt⟩
      obtain ⟨k₀, e₀, hmem, hlt, hmin, hsel⟩ := ih t hrest
      refine ⟨k₀, e₀, List.mem_cons_of_mem _ hmem, hlt, ?_, ?_⟩
      · intro q hq
        rcases List.mem_cons.mp hq with hq | hq
        · rw [hq]
          exact le_trans (le_of_lt hlt) (not_lt.mp hk)
        · exact hmin q hq
      · intro best
        simp only [selectOldestGo, if_neg hk]
        exact hsel best

theorem hasKey_iff_mem {α : Type} (k : Str) (l : List (Str × CacheEntry α)) :
    hasKey k l = true ↔ ∃ p ∈ l, p.1 = k := by
  induction l with
  | nil =>
    constructor
    · intro h
      exact absurd h (by simp [hasKey])
    · rintro ⟨p, hp, -⟩
      exact absurd hp (List.not_mem_nil p)
  | cons p rest ih =>
    by_cases hp : p.1 = k
    · constructor
      · intro _
        exact ⟨p, List.mem_cons_self _ _, hp⟩
      · intro _
        simp only [hasKey, if_pos hp]
    · constructor
      · intro h
        rw [hasKey, if_neg hp] at h
        obtain ⟨q, hq, hqk⟩ := ih.mp h
        exact ⟨q, List.mem_cons_of_mem _ hq, hqk⟩
      · rintro ⟨q, hq, hqk⟩
        rcases List.mem_cons.mp hq with hq | hq
        · rw [hq] at hqk
          exact absurd hqk hp
        · rw [hasKey, if_neg hp]
          exact ih.mpr ⟨q, hq, hqk⟩

theorem mapDelete_sublist {α : Type} (k : Str) (l : List (Str × CacheEntry α)) :
    List.Sublist (mapDelete k l) l := by
  induction l with
  | nil => exact List.Sublist.refl _
  | cons p rest ih =>
    by_cases hp : p.1 = k
    · rw [mapDelete, if_pos hp]
      exact ih.cons p
    · rw [mapDelete, if_neg hp]
      exact ih.cons₂ p

theorem mapDelete_eq_self {α : Type} (k : Str) (l : List (Str × CacheEntry α))
    (h : ∀ q ∈ l, q.1 ≠ k) : mapDelete k l = l := by
  induction l with
  | nil => rfl
  | cons q rest ih =>
    rw [mapDelete, if_neg (h q (List.mem_cons_self _ _))]
    rw [ih (fun q' hq' => h q' (List.mem_cons_of_mem _ hq'))]

theorem mapDelete_length {α : Type} (k : Str) (l : List (Str × CacheEntry α))
    (hnodup : (l.map Prod.fst).Nodup) (hk : hasKey k l = true) :
    (mapDelete k l).length + 1 = l.length := by
  induction l with
  | nil => exact absurd hk (by simp [hasKey])
  | cons p rest ih =>
    rw [List.map_cons, List.nodup_cons] at hnodup
    by_cases hp : p.1 = k
    · rw [mapDelete, if_pos hp]
      have hknotin : ∀ q ∈ rest, q.1 ≠ k := by
        intro q hq hqk
        exact hnodup.1 (by
          rw [← hp, ← hqk] at *
          exact List.mem_map_of_mem Prod.fst hq)
      rw [mapDelete_eq_self k rest hknotin, List.length_cons]
    · rw [mapDelete, if_neg hp]
      have hkrest : hasKey k rest = true := by
        rw [hasKey, if_neg hp] at hk
        exact hk
      rw [List.length_cons, List.length_cons, ih hnodup.2 hkrest]

theorem mapGet_mapSet_self {α : Type} (k : Str) (e : CacheEntry α)
    (l : List (Str × CacheEntry α)) : mapGet k (mapSet k e l) = some e := by
  unfold mapSet
  by_cases h : hasKey k l
  · rw [if_pos h]
    induction l with
    | nil => exact absurd h (by simp [hasKey])
    | cons p rest ih =>
      by_cases hp : p.1 = k
      · rw [List.map_cons, if_pos hp, mapGet, if_pos rfl]
      · have hkrest : hasKey k rest = true := by
          rw [hasKey, if_neg hp] at h
          exact h
        rw [List.map_cons, if_neg hp, mapGet, if_neg hp]
        exact ih hkrest
  · rw [if_neg h]
    induction l with
    | nil => rw [List.nil_append, mapGet, if_pos rfl]
    | cons p rest ih =>
      have hp : ¬ p.1 = k := by
        intro hpk
        exact h (by rw [hasKey, if_pos hpk])
      have hrest : ¬ hasKey k rest = true := by
        intro hr
        apply h
        rw [hasKey, if_neg hp]
        exact hr
      rw [List.cons_append, mapGet, if_neg hp]
      exact ih hrest

theorem mapSet_keys_nodup {α : Type} (k : Str) (e : CacheEntry α)
    (l : List (Str × CacheEntry α)) (hnodup : (l.map Prod.fst).Nodup) :
    ((mapSet k e l).map Prod.fst).Nodup := by
  unfold mapSet
  by_cases h : hasKey k l
  · rw [if_pos h]
    have heq : (l.map (fun p => if p.1 = k then (k, e) else p)).map Prod.fst
        = l.map Prod.fst := by
      rw [List.map_map]
      apply List.map_congr_left
      intro p _
      by_cases hp : p.1 = k
      · simp only [Function.comp_apply, if_pos hp]
        exact hp.symm
      · simp only [Function.comp_apply, if_neg hp]
    rw [heq]
    exact hnodup
  · rw [if_neg h, List.map_append, List.map_cons, List.map_nil, List.nodup_append]
    refine ⟨hnodup, List.nodup_singleton k, ?_⟩
    intro a ha
    rw [List.mem_singleton]
    intro hak
    rw [hak] at ha
    rcases List.mem_map.mp ha with ⟨p, hp, hpk⟩
    exact h ((hasKey_iff_mem k l).mpr ⟨p, hp, hpk⟩)

theorem hasKey_mapSet_self {α : Type} (k : Str) (e : CacheEntry α)
    (l : List (Str × CacheEntry α)) : hasKey k (mapSet k e l) = true := by
  apply (hasKey_iff_mem _ _).mpr
  unfold mapSet
  by_cases h : hasKey k l
  · rw [if_pos h]
    obtain ⟨p, hp, hpk⟩ := (hasKey_iff_mem k l).mp h
    refine ⟨(k, e), ?_, rfl⟩
    exact List.mem_map.mpr ⟨p, hp, by rw [if_pos hpk]⟩
  · rw [if_neg h]
    exact ⟨(k, e), List.mem_append_right _ (List.mem_cons_self _ _), rfl⟩

theorem evictOldest_keys_nodup {α : Type} (now : Nat) (c : MemoryCache α)
    (hnodup : (c.cache.map Prod.fst).Nodup) :
    (((MemoryCache.evictOldest now c).cache).map Prod.fst).Nodup := by
  unfold MemoryCache.evictOldest
  cases h : selectOldestGo none now c.cache with
  | none => exact hnodup
  | some k' =>
    dsimp only
    by_cases hk : k'.isEmpty = true
    · rw [if_pos hk]
      exact hnodup
    · rw [if_neg hk]
      exact List.Nodup.sublist ((mapDelete_sublist k' c.cache).map Prod.fst) hnodup

theorem set_cache_eq {α : Type} (now : Nat) (k : Str) (v : α) (ttl : Option Nat)
    (c : MemoryCache α) :
    (MemoryCache.set now k v ttl c).cache
      = mapSet k ⟨v, now, jsOrNat ttl c.defaultTtl⟩
          ((if (c.cache.length : Int) ≥ c.maxSize then MemoryCache.evictOldest now c
            else c).cache) := rfl

theorem set_keys_nodup {α : Type} (now : Nat) (k : Str) (v : α) (ttl : Option Nat)
    (c : MemoryCache α) (hnodup : (c.cache.map Prod.fst).Nodup) :
    (((MemoryCache.set now k v ttl c).cache).map Prod.fst).Nodup := by
  rw [set_cache_eq]
  apply mapSet_keys_nodup
  by_cases h : (c.cache.length : Int) ≥ c.maxSize
  · rw [if_pos h]
    exact evictOldest_keys_nodup now c hnodup
  · rw [if_neg h]
    exact hnodup

/- ## Claim theorems about the cache -/

/-- C2 (counterexample): constructing the cache with the non-positive
`maxSize = -1` does not propagate any failure: the constructor — which per
the source contains no validation and no throw — returns an ordinary
instance that stores `maxSize = -1` unchanged. -/
theorem mkMemoryCache_negative_counterexample :
    mkMemoryCache (α := Nat) none (some (-1))
      = { cache := [], defaultTtl := 3600000, maxSize := -1 } := by decide

/-- C2 (amended): constructing the cache with a non-positive `maxSize`
never fails.  `maxSize = 0` is falsy in `options.maxSize || 1000` and is
silently replaced by the default 1000; a negative `maxSize` is stored
unchanged, and such a cache later runs the eviction branch on every `set`
(its size is always `≥ maxSize`) instead of having failed fast. -/
theorem mkMemoryCache_no_validation :
    (∀ m : Int, (mkMemoryCache (α := Nat) none (some m)).maxSize
        = if m = 0 then 1000 else m) ∧
    (mkMemoryCache (α := Nat) none none).maxSize = 1000 ∧
    (∀ m : Int, (mkMemoryCache (α := Nat) none (some m)).cache = []) ∧
    (∀ m : Int, m < 0 →
      ((mkMemoryCache (α := Nat) none (some m)).cache.length : Int)
        ≥ (mkMemoryCache (α := Nat) none (some m)).maxSize) := by
  refine ⟨fun m => rfl, rfl, fun m => rfl, fun m hm => ?_⟩
  have : (mkMemoryCache (α := Nat) none (some m)).maxSize = if m = 0 then 1000 else m := rfl
  rw [this, if_neg (by omega)]
  simp only [mkMemoryCache, List.length_nil, Nat.cast_zero]
  omega

/-- C2 (witness for the amended theorem's hypothesis `m < 0`). -/
theorem mkMemoryCache_no_validation_witness :
    (-5 : Int) < 0 ∧
    ((mkMemoryCache (α := Nat) none (some (-5))).cache.length : Int)
      ≥ (mkMemoryCache (α := Nat) none (some (-5))).maxSize :=
  ⟨by decide, mkMemoryCache_no_validation.2.2.2 (-5) (by decide)⟩

/-- C3 (counterexample): a cache at `maxSize = 1` whose single entry was
created at the current instant: `evictOldest` starts its scan at
`oldestTime = Date.now()` with a strict comparison, so nothing is evicted
and the further `set` grows the store to 2 entries — the claimed
"removes exactly one entry, size remains at maxSize" fails. -/
theorem cache_set_full_counterexample :
    (MemoryCache.set 5 (S "a") 0 none (mkMemoryCache (α := Nat) none (some 1))).cache.length
        = 1 ∧
    ((MemoryCache.set 5 (S "a") 0 none
        (mkMemoryCache (α := Nat) none (some 1))).cache.length : Int)
      = (MemoryCache.set 5 (S "a") 0 none (mkMemoryCache (α := Nat) none (some 1))).maxSize ∧
    (MemoryCache.set 5 (S "b") 1 none
        (MemoryCache.set 5 (S "a") 0 none
          (mkMemoryCache (α := Nat) none (some 1)))).cache.length = 2 := by
  refine ⟨by decide, by decide, by decide⟩

/-- C3 (amended): on a cache holding exactly `maxSize` entries with
pairwise-distinct non-empty keys, a `set` of a key not already present
removes exactly one entry — one whose `createdAt` timestamp is minimal
among all entries — and leaves the store size unchanged at `maxSize`,
provided at least one entry was created strictly before the current time
(without that proviso the strict scan of `evictOldest` selects nothing;
without the non-empty-key proviso the `if (oldestKey)` truthiness guard
can skip the deletion of an entry keyed by the empty string). -/
theorem cache_set_full_evicts_min {α : Type} (c : MemoryCache α) (now : Nat)
    (k : Str) (v : α) (tl : Option Nat)
    (hfull : (c.cache.length : Int) = c.maxSize)
    (hnodup : (c.cache.map Prod.fst).Nodup)
    (hkeys : ∀ p ∈ c.cache, p.1 ≠ [])
    (hfresh : hasKey k c.cache = false)
    (hold : ∃ p ∈ c.cache, p.2.timestamp < now) :
    ∃ k₀ e₀, (k₀, e₀) ∈ c.cache ∧
      (∀ p ∈ c.cache, e₀.timestamp ≤ p.2.timestamp) ∧
      (MemoryCache.set now k v tl c).cache
        = mapDelete k₀ c.cache ++ [(k, ⟨v, now, jsOrNat tl c.defaultTtl⟩)] ∧
      (MemoryCache.set now k v tl c).cache.length = c.cache.length := by
  obtain ⟨k₀, e₀, hmem, _, hmin, hsel⟩ := selectOldestGo_min now c.cache hold
  have hge : (c.cache.length : Int) ≥ c.maxSize := ge_of_eq hfull
  have hk₀ne : ¬ k₀.isEmpty = true := by
    have := hkeys (k₀, e₀) hmem
    cases k₀ with
    | nil => exact absurd rfl this
    | cons a b => simp [List.isEmpty]
  have hev : MemoryCache.evictOldest now c = { c with cache := mapDelete k₀ c.cache } := by
    unfold MemoryCache.evictOldest
    rw [hsel none]
    dsimp only
    rw [if_neg hk₀ne]
  have hfree : ∀ q ∈ c.cache, q.1 ≠ k := by
    intro q hq hqk
    rw [(hasKey_iff_mem k c.cache).mpr ⟨q, hq, hqk⟩] at hfresh
    cases hfresh
  have hfreedel : ¬ hasKey k (mapDelete k₀ c.cache) = true := by
    intro h
    obtain ⟨q, hq, hqk⟩ := (hasKey_iff_mem k _).mp h
    exact hfree q ((mapDelete_sublist k₀ c.cache).mem hq) hqk
  have hsetc : (MemoryCache.set now k v tl c).cache
      = mapDelete k₀ c.cache ++ [(k, ⟨v, now, jsOrNat tl c.defaultTtl⟩)] := by
    rw [set_cache_eq, if_pos hge, hev]
    unfold mapSet
    rw [if_neg hfreedel]
  refine ⟨k₀, e₀, hmem, hmin, hsetc, ?_⟩
  rw [hsetc, List.length_append, List.length_singleton]
  exact mapDelete_length k₀ c.cache hnodup ((hasKey_iff_mem k₀ c.cache).mpr ⟨(k₀, e₀), hmem, rfl⟩)

/-- C3 (witness for the amended theorem): a 2-entry full cache whose
entries predate `now = 10`; setting the fresh key "c" evicts the minimal
entry and keeps the size at 2. -/
theorem cache_set_full_evicts_min_witness :
    ((((⟨[(S "a", ⟨0, 0, 100⟩), (S "b", ⟨1, 3, 100⟩)], 3600000, 2⟩ :
        MemoryCache Nat)).cache.length : Int)
      = (⟨[(S "a", ⟨0, 0, 100⟩), (S "b", ⟨1, 3, 100⟩)], 3600000, 2⟩ :
          MemoryCache Nat).maxSize) ∧
    ((⟨[(S "a", ⟨0, 0, 100⟩), (S "b", ⟨1, 3, 100⟩)], 3600000, 2⟩ :
        MemoryCache Nat).cache.map Prod.fst).Nodup ∧
    (∀ p ∈ (⟨[(S "a", ⟨0, 0, 100⟩), (S "b", ⟨1, 3, 100⟩)], 3600000, 2⟩ :
        MemoryCache Nat).cache, p.1 ≠ []) ∧
    hasKey (S "c") (⟨[(S "a", ⟨0, 0, 100⟩), (S "b", ⟨1, 3, 100⟩)], 3600000, 2⟩ :
        MemoryCache Nat).cache = false ∧
    (∃ p ∈ (⟨[(S "a", ⟨0, 0, 100⟩), (S "b", ⟨1, 3, 100⟩)], 3600000, 2⟩ :
        MemoryCache Nat).cache, p.2.timestamp < 10) ∧
    (∃ k₀ e₀, (k₀, e₀) ∈ (⟨[(S "a", ⟨0, 0, 100⟩), (S "b", ⟨1, 3, 100⟩)], 3600000, 2⟩ :
          MemoryCache Nat).cache ∧
      (∀ p ∈ (⟨[(S "a", ⟨0, 0, 100⟩), (S "b", ⟨1, 3, 100⟩)], 3600000, 2⟩ :
          MemoryCache Nat).cache, e₀.timestamp ≤ p.2.timestamp) ∧
      (MemoryCache.set 10 (S "c") 7 none
          (⟨[(S "a", ⟨0, 0, 100⟩), (S "b", ⟨1, 3, 100⟩)], 3600000, 2⟩ :
            MemoryCache Nat)).cache
        = mapDelete k₀ (⟨[(S "a", ⟨0, 0, 100⟩), (S "b", ⟨1, 3, 100⟩)], 3600000, 2⟩ :
            MemoryCache Nat).cache ++ [((S "c"), ⟨7, 10, jsOrNat none 3600000⟩)] ∧
      (MemoryCache.set 10 (S "c") 7 none
          (⟨[(S "a", ⟨0, 0, 100⟩), (S "b", ⟨1, 3, 100⟩)], 3600000, 2⟩ :
            MemoryCache Nat)).cache.length
        = (⟨[(S "a", ⟨0, 0, 100⟩), (S "b", ⟨1, 3, 100⟩)], 3600000, 2⟩ :
            MemoryCache Nat).cache.length) :=
  ⟨by decide, by decide, by decide, by decide, by decide,
    cache_set_full_evicts_min _ 10 (S "c") 7 none (by decide) (by decide) (by decide)
      (by decide) (by decide)⟩

/-- C5: after `set(k, v, 50)` performed at time `t0`, at any time `now`
strictly more than 50 units later `get(k)` returns absent and `has(k)` is
false, and in both cases the lazy expiry check deletes the stale entry, so
the store size drops by one. -/
theorem cache_ttl_expiry {α : Type} (c0 : MemoryCache α) (k : Str) (v : α)
    (t0 now : Nat)
    (hnodup : (c0.cache.map Prod.fst).Nodup)
    (hnow : t0 + 50 < now) :
    (MemoryCache.get now k (MemoryCache.set t0 k v (some 50) c0)).1 = none ∧
    (MemoryCache.has now k (MemoryCache.set t0 k v (some 50) c0)).1 = false ∧
    (MemoryCache.get now k (MemoryCache.set t0 k v (some 50) c0)).2.cache
      = mapDelete k (MemoryCache.set t0 k v (some 50) c0).cache ∧
    (MemoryCache.has now k (MemoryCache.set t0 k v (some 50) c0)).2.cache
      = mapDelete k (MemoryCache.set t0 k v (some 50) c0).cache ∧
    (MemoryCache.get now k (MemoryCache.set t0 k v (some 50) c0)).2.cache.length + 1
      = (MemoryCache.set t0 k v (some 50) c0).cache.length := by
  have httl : jsOrNat (some 50) c0.defaultTtl = 50 := rfl
  have hget : mapGet k (MemoryCache.set t0 k v (some 50) c0).cache
      = some ⟨v, t0, 50⟩ := by
    rw [set_cache_eq, httl]
    exact mapGet_mapSet_self k _ _
  have hexp : (⟨v, t0, 50⟩ : CacheEntry α).timestamp + (⟨v, t0, 50⟩ : CacheEntry α).ttl
      < now := hnow
  have hg : MemoryCache.get now k (MemoryCache.set t0 k v (some 50) c0)
      = (none, { (MemoryCache.set t0 k v (some 50) c0) with
          cache := mapDelete k (MemoryCache.set t0 k v (some 50) c0).cache }) := by
    unfold MemoryCache.get
    rw [hget]
    dsimp only
    rw [if_pos hexp]
  have hh : MemoryCache.has now k (MemoryCache.set t0 k v (some 50) c0)
      = (false, { (MemoryCache.set t0 k v (some 50) c0) with
          cache := mapDelete k (MemoryCache.set t0 k v (some 50) c0).cache }) := by
    unfold MemoryCache.has
    rw [hget]
    dsimp only
    rw [if_pos hexp]
  have hnodup1 : (((MemoryCache.set t0 k v (some 50) c0).cache).map Prod.fst).Nodup :=
    set_keys_nodup t0 k v (some 50) c0 hnodup
  have hkey : hasKey k (MemoryCache.set t0 k v (some 50) c0).cache = true := by
    rw [set_cache_eq]
    exact hasKey_mapSet_self k _ _
  refine ⟨by rw [hg], by rw [hh], by rw [hg], by rw [hh], ?_⟩
  rw [hg]
  exact mapDelete_length k _ hnodup1 hkey

/-- C5 (witness): concrete run with `t0 = 0`, `now = 51` on a fresh cache. -/
theorem cache_ttl_expiry_witness :
    ((mkMemoryCache (α := Nat) none none).cache.map Prod.fst).Nodup ∧
    0 + 50 < 51 ∧
    ((MemoryCache.get 51 (S "k") (MemoryCache.set 0 (S "k") 1 (some 50)
        (mkMemoryCache (α := Nat) none none))).1 = none ∧
      (MemoryCache.has 51 (S "k") (MemoryCache.set 0 (S "k") 1 (some 50)
        (mkMemoryCache (α := Nat) none none))).1 = false ∧
      (MemoryCache.get 51 (S "k") (MemoryCache.set 0 (S "k") 1 (some 50)
          (mkMemoryCache (α := Nat) none none))).2.cache
        = mapDelete (S "k") (MemoryCache.set 0 (S "k") 1 (some 50)
            (mkMemoryCache (α := Nat) none none)).cache ∧
      (MemoryCache.has 51 (S "k") (MemoryCache.set 0 (S "k") 1 (some 50)
          (mkMemoryCache (α := Nat) none none))).2.cache
        = mapDelete (S "k") (MemoryCache.set 0 (S "k") 1 (some 50)
            (mkMemoryCache (α := Nat) none none)).cache ∧
      (MemoryCache.get 51 (S "k") (MemoryCache.set 0 (S "k") 1 (some 50)
          (mkMemoryCache (α := Nat) none none))).2.cache.length + 1
        = (MemoryCache.set 0 (S "k") 1 (some 50)
            (mkMemoryCache (α := Nat) none none)).cache.length) :=
  ⟨by decide, by decide,
    cache_ttl_expiry (mkMemoryCache none none) (S "k") 1 0 51 (by decide) (by decide)⟩

/-- C6: reading an unexpired entry with `get` or `has` leaves the cache
state — in particular the entry's `createdAt` timestamp and every other
stored field — completely unchanged; iterating `get` any number of times
changes nothing, and hence the key selected by the eviction scan at any
future instant is unaffected (FIFO by insertion, not LRU). -/
theorem cache_get_preserves_state {α : Type} (c : MemoryCache α) (k : Str)
    (e : CacheEntry α) (now now' : Nat)
    (hk : mapGet k c.cache = some e)
    (hlive : ¬ e.timestamp + e.ttl < now) :
    (MemoryCache.get now k c).1 = some e.data ∧
    (MemoryCache.get now k c).2 = c ∧
    (MemoryCache.has now k c).1 = true ∧
    (MemoryCache.has now k c).2 = c ∧
    (∀ n, getIter now k n c = c) ∧
    MemoryCache.evictOldest now' (MemoryCache.get now k c).2
      = MemoryCache.evictOldest now' c := by
  have hg : MemoryCache.get now k c = (some e.data, c) := by
    unfold MemoryCache.get
    rw [hk]
    dsimp only
    rw [if_neg hlive]
  have hh : MemoryCache.has now k c = (true, c) := by
    unfold MemoryCache.has
    rw [hk]
    dsimp only
    rw [if_neg hlive]
  have hiter : ∀ n, getIter now k n c = c := by
    intro n
    induction n with
    | zero => rfl
    | succ n ih =>
      show getIter now k n (getState now k c) = c
      rw [getState, hg]
      exact ih
  exact ⟨by rw [hg], by rw [hg], by rw [hh], by rw [hh], hiter, by rw [hg]⟩

/-- C6 (witness): a live entry read at `now = 50`, eviction probed at 60. -/
theorem cache_get_preserves_state_witness :
    mapGet (S "a") (⟨[(S "a", ⟨2, 10, 100⟩)], 3600000, 1000⟩ :
        MemoryCache Nat).cache = some ⟨2, 10, 100⟩ ∧
    ¬ (⟨2, 10, 100⟩ : CacheEntry Nat).timestamp + (⟨2, 10, 100⟩ : CacheEntry Nat).ttl < 50 ∧
    ((MemoryCache.get 50 (S "a") (⟨[(S "a", ⟨2, 10, 100⟩)], 3600000, 1000⟩ :
        MemoryCache Nat)).1 = some 2 ∧
      (MemoryCache.get 50 (S "a") (⟨[(S "a", ⟨2, 10, 100⟩)], 3600000, 1000⟩ :
          MemoryCache Nat)).2
        = (⟨[(S "a", ⟨2, 10, 100⟩)], 3600000, 1000⟩ : MemoryCache Nat) ∧
      (MemoryCache.has 50 (S "a") (⟨[(S "a", ⟨2, 10, 100⟩)], 3600000, 1000⟩ :
          MemoryCache Nat)).1 = true ∧
      (MemoryCache.has 50 (S "a") (⟨[(S "a", ⟨2, 10, 100⟩)], 3600000, 1000⟩ :
          MemoryCache Nat)).2
        = (⟨[(S "a", ⟨2, 10, 100⟩)], 3600000, 1000⟩ : MemoryCache Nat) ∧
      (∀ n, getIter 50 (S "a") n (⟨[(S "a", ⟨2, 10, 100⟩)], 3600000, 1000⟩ :
          MemoryCache Nat)
        = (⟨[(S "a", ⟨2, 10, 100⟩)], 3600000, 1000⟩ : MemoryCache Nat)) ∧
      MemoryCache.evictOldest 60
          (MemoryCache.get 50 (S "a") (⟨[(S "a", ⟨2, 10, 100⟩)], 3600000, 1000⟩ :
            MemoryCache Nat)).2
        = MemoryCache.evictOldest 60 (⟨[(S "a", ⟨2, 10, 100⟩)], 3600000, 1000⟩ :
            MemoryCache Nat)) :=
  ⟨by decide, by decide,
    cache_get_preserves_state _ (S "a") ⟨2, 10, 100⟩ 50 60 (by decide) (by decide)⟩

/- ## Claim theorems about the parser -/

/-- C1: the claim says `extractInstallationInstructions` never raises for
malformed or missing input (including a non-string or null value) and
degrades to the all-absent result.  Unlike its siblings
(`parseUsageExamples`, `cleanReadmeContent`), the source function has no
string guard, so `readme.match(...)` throws a `TypeError` on null,
undefined and numeric inputs; only genuine strings are processed.  This
theorem evaluates the embedded code at those failing inputs. -/
theorem extractInstallationInstructions_throws_on_null :
    extractInstallationInstructionsJS JSVal.vnull
        = .error (S "TypeError: readme.match is not a function") ∧
    extractInstallationInstructionsJS JSVal.vundefined
        = .error (S "TypeError: readme.match is not a function") ∧
    extractInstallationInstructionsJS (JSVal.vnum 7)
        = .error (S "TypeError: readme.match is not a function") ∧
    (∀ s : Str, extractInstallationInstructionsJS (JSVal.vstr s)
        = .ok (extractInstallationInstructions s)) :=
  ⟨rfl, rfl, rfl, fun _ => rfl⟩

/-- C8: the relevance filter's reject checks run before its accept checks:
any block whose trimmed body matches a noise pattern is rejected, for
every declared language (in particular one in the allow-set) and however
long the body is (in particular past the untagged length fallback). -/
theorem isRelevantCodeBlock_noise_rejected (code lang : Str)
    (h : noiseMatch (trimStr code) = true) :
    isRelevantCodeBlock code lang = false := by
  unfold isRelevantCodeBlock
  by_cases h1 : (code.isEmpty || decide ((trimStr code).length < 10)) = true
  · rw [if_pos h1]
  · rw [if_neg h1, if_pos h]

/-- C8 (witness): a 25-character bare URL with an allow-set language and
body length beyond the untagged fallback, and an over-10-character bare
semantic version string, are both rejected. -/
theorem isRelevantCodeBlock_noise_rejected_witness :
    noiseMatch (trimStr (S "https://example.com/abcde")) = true ∧
    noiseMatch (trimStr (S "10.20.3000")) = true ∧
    (S "https://example.com/abcde").length = 25 ∧
    20 < (S "https://example.com/abcde").length ∧
    10 ≤ (trimStr (S "10.20.3000")).length ∧
    relevantLanguages.contains ((S "swift").map lowerChar) = true ∧
    isRelevantCodeBlock (S "https://example.com/abcde") (S "swift") = false ∧
    isRelevantCodeBlock (S "10.20.3000") (S "") = false :=
  ⟨by decide, by decide, by decide, by decide, by decide, by decide,
    isRelevantCodeBlock_noise_rejected _ _ (by decide),
    isRelevantCodeBlock_noise_rejected _ _ (by decide)⟩

/-- C7: for every section text and block offset, the description extractor
equals its specification: of all lines strictly before the offset taken in
reverse order, the first whose trimmed form is non-empty, not a heading
and longer than 10 characters, trimmed — and nothing when no line
qualifies all the way back to the start of the text. -/
theorem extractBlockDescription_spec (content : Str) (blockIndex : Nat) :
    extractBlockDescription content blockIndex
      = specBlockDescription content blockIndex := by
  unfold extractBlockDescription specBlockDescription
  generalize (splitLines (content.take blockIndex)).reverse = lines
  induction lines with
  | nil => rfl
  | cons line rest ih =>
    by_cases h : descrQualifies line = true
    · rw [extractBlockDescriptionGo, if_pos h, List.find?_cons_of_pos _ h,
        Option.map_some']
    · rw [extractBlockDescriptionGo, if_neg h,
        List.find?_cons_of_neg _ (by simpa using h)]
      exact ih

theorem ecbGo_enumFrom (title content : Str) (total : Nat) :
    ∀ (i : Nat) (bs : List CodeBlock),
      ecbGo title content total i bs
        = ((bs.enumFrom i).filter
              (fun p => isRelevantCodeBlock p.2.code p.2.language)).map
            (fun p => mkExample title content total p.1 p.2) := by
  intro i bs
  induction bs generalizing i with
  | nil => rfl
  | cons b rest ih =>
    by_cases h : isRelevantCodeBlock b.code b.language = true
    · rw [ecbGo, if_pos h, List.enumFrom, List.filter_cons_of_pos (by simpa using h),
        List.map_cons]
      rw [ih (i + 1)]
    · rw [ecbGo, if_neg h, List.enumFrom, List.filter_cons_of_neg (by simpa using h)]
      exact ih (i + 1)

/-- C10: example titles are numbered by the block's position among all
fenced blocks extracted from the section, counting blocks the relevance
filter later rejects — the loop equals enumerate-then-filter-then-map, in
which `mkExample` titles with the section title alone when the section has
exactly one block and with the 1-based index over all blocks otherwise; in
particular a section whose first of two blocks is rejected yields the lone
example "T 2" with no lower-indexed sibling. -/
theorem extractCodeBlocksFromSection_numbering :
    (∀ title content,
      extractCodeBlocksFromSection title content
        = (((extractCodeBlocks content).enum).filter
              (fun p => isRelevantCodeBlock p.2.code p.2.language)).map
            (fun p =>
              mkExample title content (extractCodeBlocks content).length p.1 p.2)) ∧
    (∀ title content total i b,
      mkExample title content total i b
        = { title := if total = 1 then title else title ++ ' ' :: natToStr (i + 1)
            description := extractBlockDescription content b.originalIndex
            code := trimStr b.code
            language :=
              if b.language.isEmpty then detectLanguage b.code else b.language }) ∧
    extractCodeBlocksFromSection (S "T")
        (S "```\n1.2.3.4567\n```\n```swift\nimport Foundation\n```")
      = [⟨S "T 2", none, S "import Foundation", S "swift"⟩] := by
  refine ⟨?_, fun _ _ _ _ _ => rfl, by decide⟩
  intro title content
  unfold extractCodeBlocksFromSection
  rw [ecbGo_enumFrom]
  rfl

/-- C9: if the section-driven phase yields zero examples, the whole
original text is run once more through the extractor under the synthetic
title "General Usage" (then deduplicated); in particular a document with
no headings and one fenced block of more than 20 characters of plain
untagged text yields exactly one example titled "General Usage". -/
theorem parseUsageExamples_general_usage_fallback :
    (∀ readme : Str, sectionExamples readme = [] →
      parseUsageExamples readme
        = deduplicateExamples
            (extractCodeBlocksFromSection (S "General Usage") readme)) ∧
    parseUsageExamples
        (S "just some plain filler text here fine\n```\nthis is some plain text content ok\n```")
      = [⟨S "General Usage", some (S "just some plain filler text here fine"),
          S "this is some plain text content ok", S "text"⟩] := by
  constructor
  · intro readme h
    unfold parseUsageExamples
    by_cases he : readme.isEmpty = true
    · rw [if_pos he]
      have hnil : readme = [] := by
        cases readme with
        | nil => rfl
        | cons c cs => simp [List.isEmpty] at he
      rw [hnil]
      rfl
    · rw [if_neg he, h]
      rfl
  · decide

/-- C9 (witness): a headingless one-block document discharging the
fallback hypothesis. -/
theorem parseUsageExamples_general_usage_fallback_witness :
    sectionExamples (S "```ruby\npod install something\n```") = [] ∧
    parseUsageExamples (S "```ruby\npod install something\n```")
      = deduplicateExamples
          (extractCodeBlocksFromSection (S "General Usage")
            (S "```ruby\npod install something\n```")) :=
  ⟨by decide, parseUsageExamples_general_usage_fallback.1 _ (by decide)⟩

/- ## String-scanner lemmas for the normalizer -/

theorem isPre_append (t s b : Str) (h : isPre t s = true) : isPre t (s ++ b) = true := by
  induction t generalizing s with
  | nil => rfl
  | cons p ps ih =>
    cases s with
    | nil => exact absurd h (by rw [isPre]; exact Bool.false_ne_true)
    | cons c cs =>
      rw [isPre] at h
      by_cases hpc : p = c
      · rw [List.cons_append, isPre, if_pos hpc]
        rw [if_pos hpc] at h
        exact ih cs h
      · rw [if_neg hpc] at h
        exact absurd h Bool.false_ne_true

theorem isPre_containsSub (t l : Str) (h : isPre t l = true) :
    containsSub t l = true := by
  cases l with
  | nil => exact h
  | cons c cs => rw [containsSub, h, Bool.true_or]

theorem containsSub_cons_false (t : Str) (c : Char) (cs : Str)
    (h : containsSub t (c :: cs) = false) :
    isPre t (c :: cs) = false ∧ containsSub t cs = false := by
  rw [containsSub, Bool.or_eq_false_iff] at h
  exact h

theorem containsSub_append_right (t x y : Str) (h : containsSub t y = true) :
    containsSub t (x ++ y) = true := by
  induction x with
  | nil => exact h
  | cons c cs ih => rw [List.cons_append, containsSub, ih, Bool.or_true]

theorem containsSub_append_left (t m b : Str) (h : containsSub t m = true) :
    containsSub t (m ++ b) = true := by
  induction m with
  | nil =>
    rw [containsSub] at h
    rw [List.nil_append]
    cases b with
    | nil => exact h
    | cons c cs =>
      have h2 : isPre t (c :: cs) = true := isPre_append t [] (c :: cs) h
      rw [containsSub, h2, Bool.true_or]
  | cons c cs ih =>
    rw [containsSub, Bool.or_eq_true_iff] at h
    rcases h with h | h
    · have h2 : isPre t (c :: (cs ++ b)) = true := isPre_append t (c :: cs) b h
      rw [List.cons_append, containsSub, h2, Bool.true_or]
    · rw [List.cons_append, containsSub, ih h, Bool.or_true]

theorem containsSub_middle (t a m b : Str) (h : containsSub t m = true) :
    containsSub t (a ++ m ++ b) = true := by
  rw [List.append_assoc]
  exact containsSub_append_right t a (m ++ b) (containsSub_append_left t m b h)

theorem scanRemoveF_id (m : Str → Option Str) (trig : Str)
    (htrig : ∀ l r, m l = some r → isPre trig l = true) :
    ∀ (f : Nat) (l : Str), containsSub trig l = false → scanRemoveF m f l = l := by
  intro f
  induction f with
  | zero => intro l _; rfl
  | succ f ih =>
    intro l h
    cases l with
    | nil => rfl
    | cons c cs =>
      obtain ⟨h1, h2⟩ := containsSub_cons_false trig c cs h
      have hm : m (c :: cs) = none := by
        cases hmm : m (c :: cs) with
        | none => rfl
        | some r => rw [htrig (c :: cs) r hmm] at h1; cases h1
      rw [scanRemoveF, hm, ih cs h2]

theorem badgeMatchAt_trigger (l r : Str) (h : badgeMatchAt l = some r) :
    isPre (S "[![") l = true := by
  by_cases hp : isPre (S "[![") l = true
  · exact hp
  · rw [badgeMatchAt, if_neg hp] at h
    cases h

theorem shieldsMatchAt_trigger (l r : Str) (h : shieldsMatchAt l = some r) :
    isPre (S "![") l = true := by
  by_cases hp : isPre (S "![") l = true
  · exact hp
  · rw [shieldsMatchAt, if_neg hp] at h
    cases h

theorem commentMatchAt_trigger (l r : Str) (h : commentMatchAt l = some r) :
    isPre (S "<!--") l = true := by
  by_cases hp : isPre (S "<!--") l = true
  · exact hp
  · rw [commentMatchAt, if_neg hp] at h
    cases h

theorem containsSub_bang_of_badge (l : Str) (h : isPre (S "[![") l = true) :
    containsSub (S "![") l = true := by
  cases l with
  | nil => exact absurd h (by decide)
  | cons c cs =>
    have hc : c = '[' ∧ isPre (S "![") cs = true := by
      by_cases hcc : ('[' : Char) = c
      · refine ⟨hcc.symm, ?_⟩
        rw [show (S "[![") = '[' :: S "![" from rfl, isPre, if_pos hcc] at h
        exact h
      · rw [show (S "[![") = '[' :: S "![" from rfl, isPre, if_neg hcc] at h
        cases h
    rw [containsSub, isPre_containsSub _ _ hc.2, Bool.or_true]

theorem containsSub_badge_false (l : Str) (h : containsSub (S "![") l = false) :
    containsSub (S "[![") l = false := by
  induction l with
  | nil => rfl
  | cons c cs ih =>
    obtain ⟨h1, h2⟩ := containsSub_cons_false _ c cs h
    rw [containsSub, ih h2, Bool.or_false]
    by_cases hp : isPre (S "[![") (c :: cs) = true
    · rw [containsSub_bang_of_badge _ hp] at h
      cases h
    · exact Bool.not_eq_true _ ▸ Bool.of_not_eq_true hp

/- ## Flatness of the blank-line collapser -/

theorem count_breakRun_lt3 (w : Str) : (breakRun w).count '\n' < 3 := by
  unfold breakRun
  by_cases h : 3 ≤ w.count '\n'
  · rw [if_pos h]
    have h1 : (w.takeWhile (fun c => ¬ (c = '\n'))).count '\n' = 0 := by
      rw [List.count_eq_zero]
      intro hmem
      have := List.mem_takeWhile_imp hmem
      simp at this
    have h2 : ((w.reverse.takeWhile (fun c => ¬ (c = '\n'))).reverse).count '\n' = 0 := by
      rw [List.count_eq_zero]
      intro hmem
      rw [List.mem_reverse] at hmem
      have := List.mem_takeWhile_imp hmem
      simp at this
    rw [List.count_append, h1, Nat.zero_add]
    simp only [List.count_cons, h2]
    simp
  · rw [if_neg h]
    omega

theorem breakRun_all_ws (w : Str) (h : ∀ c ∈ w, isWs c = true) :
    ∀ c ∈ breakRun w, isWs c = true := by
  intro c hc
  unfold breakRun at hc
  by_cases h3 : 3 ≤ w.count '\n'
  · rw [if_pos h3] at hc
    rcases List.mem_append.mp hc with hc | hc
    · exact h c ((List.takeWhile_sublist _).mem hc)
    · rcases List.mem_cons.mp hc with hc | hc
      · rw [hc]; rfl
      · rcases List.mem_cons.mp hc with hc | hc
        · rw [hc]; rfl
        · rw [List.mem_reverse] at hc
          have := (List.takeWhile_sublist (fun c => ¬ (c = '\n'))).mem hc
          rw [List.mem_reverse] at this
          exact h c this
  · rw [if_neg h3] at hc
    exact h c hc

theorem breakRun_nil (w : Str) (h : breakRun w = []) : w = [] := by
  unfold breakRun at h
  by_cases h3 : 3 ≤ w.count '\n'
  · rw [if_pos h3] at h
    exact absurd h (by simp)
  · rw [if_neg h3] at h
    exact h

theorem dropWhile_head_false {p : Char → Bool} {l : Str} {d : Char} {r : Str}
    (h : l.dropWhile p = d :: r) : p d = false := by
  induction l with
  | nil => cases h
  | cons c cs ih =>
    rw [List.dropWhile_cons] at h
    by_cases hc : p c = true
    · rw [if_pos hc] at h
      exact ih h
    · rw [if_neg hc] at h
      injection h with h1 _
      rw [← h1]
      simpa using hc

theorem count_middle_le (a : Char) (y u w v : Str) (h : y = u ++ w ++ v) :
    w.count a ≤ y.count a := by
  subst h
  rw [List.count_append, List.count_append]
  omega

theorem split_of_dropWhile (l : Str) (d : Char) (r : Str)
    (h : l.dropWhile isWs = d :: r) : l = l.takeWhile isWs ++ d :: r := by
  rw [← h, List.takeWhile_append_dropWhile]

theorem length_dropWhile_tail (l : Str) (d : Char) (r : Str)
    (h : l.dropWhile isWs = d :: r) : r.length + 1 ≤ l.length := by
  have hs := split_of_dropWhile l d r h
  have h2 : l.length = (l.takeWhile isWs).length + (d :: r).length := by
    conv_lhs => rw [hs]
    rw [List.length_append]
  rw [List.length_cons] at h2
  omega

theorem ws_seg_split (P Q w u v : Str) (d : Char) (hd : isWs d = false)
    (heq : u ++ w ++ v = P ++ d :: Q) (hw : ∀ c ∈ w, isWs c = true) :
    (∃ u2 v2, P = u2 ++ w ++ v2) ∨ (∃ u2 v2, Q = u2 ++ w ++ v2) := by
  have heq2 : u ++ (w ++ v) = P ++ (d :: Q) := by
    rw [← List.append_assoc]
    exact heq
  rcases List.append_eq_append_iff.mp heq2 with ⟨a2, hP, hwv⟩ | ⟨c2, _, hdq⟩
  · rcases List.append_eq_append_iff.mp hwv with ⟨b2, ha2, _⟩ | ⟨c3, hw2, hdq2⟩
    · left
      exact ⟨u, b2, by rw [hP, ha2, List.append_assoc]⟩
    · cases c3 with
      | nil =>
        left
        refine ⟨u, [], ?_⟩
        rw [List.append_nil] at hw2
        rw [hP, ← hw2, List.append_nil]
      | cons x c4 =>
        exfalso
        rw [List.cons_append] at hdq2
        injection hdq2 with h1 _
        have hdw : d ∈ w := by
          rw [hw2, h1]
          exact List.mem_append_right _ (List.mem_cons_self _ _)
        rw [hw d hdw] at hd
        cases hd
  · cases c2 with
    | nil =>
      rw [List.nil_append] at hdq
      cases w with
      | nil =>
        right
        exact ⟨[], Q, by simp⟩
      | cons wc w2 =>
        exfalso
        rw [List.cons_append] at hdq
        injection hdq with h1 _
        have := hw wc (List.mem_cons_self _ _)
        rw [h1] at hd
        rw [this] at hd
        cases hd
    | cons x c3 =>
      right
      rw [List.cons_append] at hdq
      injection hdq with _ h2
      exact ⟨c3, v, by rw [h2, List.append_assoc]⟩

theorem collapseF_WsFlat : ∀ (f : Nat) (l : Str), l.length ≤ f → WsFlat (collapseF f l) := by
  intro f
  induction f with
  | zero =>
    intro l hl
    have hnil : l = [] := List.length_eq_zero.mp (Nat.le_zero.mp hl)
    subst hnil
    intro u w v h _
    have hw0 : w.count '\n' ≤ (collapseF 0 ([] : Str)).count '\n' :=
      count_middle_le _ _ _ _ _ h
    simp only [collapseF, List.count_nil, Nat.le_zero] at hw0
    omega
  | succ f ih =>
    intro l hl
    cases hdrop : l.dropWhile isWs with
    | nil =>
      have hcc : collapseF (f + 1) l = breakRun l := by
        rw [collapseF, hdrop]
      rw [hcc]
      intro u w v h _
      exact Nat.lt_of_le_of_lt (count_middle_le _ _ _ _ _ h) (count_breakRun_lt3 l)
    | cons d r =>
      have hcc : collapseF (f + 1) l
          = breakRun (l.takeWhile isWs) ++ d :: collapseF f r := by
        rw [collapseF, hdrop]
      have hd : isWs d = false := dropWhile_head_false hdrop
      have hlen : r.length ≤ f := by
        have := length_dropWhile_tail l d r hdrop
        omega
      have hX := ih r hlen
      rw [hcc]
      intro u w v h hw
      rcases ws_seg_split (breakRun (l.takeWhile isWs)) (collapseF f r) w u v d hd
          h.symm hw with ⟨u2, v2, hP⟩ | ⟨u2, v2, hQ⟩
      · exact Nat.lt_of_le_of_lt (count_middle_le _ _ _ _ _ hP) (count_breakRun_lt3 _)
      · exact hX u2 w v2 hQ hw

theorem collapseF_fix_of_WsFlat : ∀ (g : Nat) (y : Str), WsFlat y → y.length ≤ g →
    collapseF g y = y := by
  intro g
  induction g with
  | zero =>
    intro y _ hy
    have hnil : y = [] := List.length_eq_zero.mp (Nat.le_zero.mp hy)
    rw [hnil]
    rfl
  | succ g ih =>
    intro y hflat hlen
    cases hdrop : y.dropWhile isWs with
    | nil =>
      rw [collapseF, hdrop]
      have hws : ∀ c ∈ y, isWs c = true := List.dropWhile_eq_nil_iff.mp hdrop
      have hcnt : y.count '\n' < 3 := hflat [] y [] (by simp) hws
      rw [breakRun, if_neg (by omega)]
    | cons d r =>
      rw [collapseF, hdrop]
      dsimp only
      have hsplit : y = y.takeWhile isWs ++ d :: r := split_of_dropWhile y d r hdrop
      have htw : ∀ c ∈ y.takeWhile isWs, isWs c = true :=
        fun c hc => List.mem_takeWhile_imp hc
      have hcnt : (y.takeWhile isWs).count '\n' < 3 :=
        hflat [] (y.takeWhile isWs) (d :: r) (by rw [List.nil_append]; exact hsplit) htw
      have hbr : breakRun (y.takeWhile isWs) = y.takeWhile isWs := by
        rw [breakRun, if_neg (by omega)]
      have hflatr : WsFlat r := by
        intro u w v hr hw
        refine hflat (y.takeWhile isWs ++ d :: u) w v ?_ hw
        calc y = y.takeWhile isWs ++ d :: r := hsplit
          _ = y.takeWhile isWs ++ d :: (u ++ w ++ v) := by rw [hr]
          _ = (y.takeWhile isWs ++ d :: u) ++ w ++ v := by simp [List.append_assoc]
      have hlenr : r.length ≤ g := by
        have := length_dropWhile_tail y d r hdrop
        omega
      rw [hbr, ih r hflatr hlenr]
      exact hsplit.symm

theorem trim_middle (y : Str) : ∃ a b, y = a ++ trimStr y ++ b := by
  refine ⟨y.takeWhile isWs, ((y.dropWhile isWs).reverse.takeWhile isWs).reverse, ?_⟩
  unfold trimStr
  have h2 : y.dropWhile isWs
      = ((y.dropWhile isWs).reverse.dropWhile isWs).reverse
        ++ ((y.dropWhile isWs).reverse.takeWhile isWs).reverse := by
    conv_lhs => rw [← List.reverse_reverse (y.dropWhile isWs)]
    conv_lhs =>
      rw [← List.takeWhile_append_dropWhile isWs (y.dropWhile isWs).reverse]
    rw [List.reverse_append]
  conv_lhs => rw [← List.takeWhile_append_dropWhile isWs y]
  rw [List.append_assoc, ← h2]

theorem WsFlat_trim (y : Str) (h : WsFlat y) : WsFlat (trimStr y) := by
  obtain ⟨a, b, hy⟩ := trim_middle y
  intro u w v hw hws
  exact h (a ++ u) w (v ++ b)
    (by rw [hy, hw]; simp [List.append_assoc]) hws

/- ## Non-whitespace substrings survive the collapser backwards -/

theorem isPre_head_ws (c0 : Char) (t2 : Str) (b : Char) (z : Str)
    (hc : isWs c0 = false) (hb : isWs b = true) :
    isPre (c0 :: t2) (b :: z) = false := by
  have hne : ¬ c0 = b := by
    intro he
    rw [he, hb] at hc
    cases hc
  rw [isPre, if_neg hne]

theorem isPre_allws (c0 : Char) (t2 B : Str) (hc : isWs c0 = false)
    (hB : ∀ c ∈ B, isWs c = true) : isPre (c0 :: t2) B = false := by
  cases B with
  | nil => rfl
  | cons b bs => exact isPre_head_ws c0 t2 b bs hc (hB b (List.mem_cons_self _ _))

theorem containsSub_allws (c0 : Char) (t2 B : Str) (hc : isWs c0 = false)
    (hB : ∀ c ∈ B, isWs c = true) : containsSub (c0 :: t2) B = false := by
  induction B with
  | nil => rfl
  | cons b bs ih =>
    rw [containsSub, isPre_head_ws c0 t2 b (bs) hc (hB b (List.mem_cons_self _ _)),
      ih (fun c hcm => hB c (List.mem_cons_of_mem _ hcm)), Bool.or_false]

theorem isPre_allws_append (c0 : Char) (t2 B X : Str) (hc : isWs c0 = false)
    (hB : ∀ c ∈ B, isWs c = true) (h : isPre (c0 :: t2) (B ++ X) = true) :
    B = [] := by
  cases B with
  | nil => rfl
  | cons b bs =>
    rw [List.cons_append,
      isPre_head_ws c0 t2 b (bs ++ X) hc (hB b (List.mem_cons_self _ _))] at h
    cases h

theorem containsSub_allws_append (c0 : Char) (t2 B Y : Str) (hc : isWs c0 = false)
    (hB : ∀ c ∈ B, isWs c = true) (h : containsSub (c0 :: t2) (B ++ Y) = true) :
    containsSub (c0 :: t2) Y = true := by
  induction B with
  | nil => exact h
  | cons b bs ih =>
    rw [List.cons_append, containsSub,
      isPre_head_ws c0 t2 b (bs ++ Y) hc (hB b (List.mem_cons_self _ _)),
      Bool.false_or] at h
    exact ih (fun c hcm => hB c (List.mem_cons_of_mem _ hcm)) h

theorem collapseF_isPre_rev : ∀ (f : Nat) (t l : Str), t ≠ [] →
    (∀ c ∈ t, isWs c = false) → l.length ≤ f →
    isPre t (collapseF f l) = true → isPre t l = true := by
  intro f
  induction f with
  | zero => intro t l _ _ _ h; exact h
  | succ f ih =>
    intro t l ht htw hl h
    obtain ⟨c0, t2, rfl⟩ : ∃ c0 t2, t = c0 :: t2 := by
      cases t with
      | nil => exact absurd rfl ht
      | cons a b => exact ⟨a, b, rfl⟩
    have hc0 : isWs c0 = false := htw c0 (List.mem_cons_self _ _)
    cases hdrop : l.dropWhile isWs with
    | nil =>
      rw [collapseF, hdrop] at h
      have hws : ∀ c ∈ l, isWs c = true := List.dropWhile_eq_nil_iff.mp hdrop
      rw [isPre_allws c0 t2 (breakRun l) hc0 (breakRun_all_ws l hws)] at h
      cases h
    | cons d r =>
      rw [collapseF, hdrop] at h
      dsimp only at h
      have htwws : ∀ c ∈ l.takeWhile isWs, isWs c = true :=
        fun c hc => List.mem_takeWhile_imp hc
      have hBws := breakRun_all_ws (l.takeWhile isWs) htwws
      have hBnil : breakRun (l.takeWhile isWs) = [] :=
        isPre_allws_append c0 t2 _ _ hc0 hBws h
      have htwnil : l.takeWhile isWs = [] := breakRun_nil _ hBnil
      have hsplit : l = d :: r := by
        have := split_of_dropWhile l d r hdrop
        rw [htwnil, List.nil_append] at this
        exact this
      rw [hBnil, List.nil_append, isPre] at h
      by_cases hcd : c0 = d
      · rw [if_pos hcd] at h
        rw [hsplit, isPre, if_pos hcd]
        cases ht2 : t2 with
        | nil => rfl
        | cons a b =>
          rw [ht2] at h
          have hlen : r.length ≤ f := by
            have := length_dropWhile_tail l d r hdrop
            omega
          exact ht2 ▸ ih (a :: b) r (by simp)
            (fun c hc => htw c (ht2 ▸ List.mem_cons_of_mem c0 hc)) hlen h
      · rw [if_neg hcd] at h
        cases h

theorem collapseF_containsSub_rev : ∀ (f : Nat) (t l : Str), t ≠ [] →
    (∀ c ∈ t, isWs c = false) → l.length ≤ f →
    containsSub t (collapseF f l) = true → containsSub t l = true := by
  intro f
  induction f with
  | zero => intro t l _ _ _ h; exact h
  | succ f ih =>
    intro t l ht htw hl h
    obtain ⟨c0, t2, rfl⟩ : ∃ c0 t2, t = c0 :: t2 := by
      cases t with
      | nil => exact absurd rfl ht
      | cons a b => exact ⟨a, b, rfl⟩
    have hc0 : isWs c0 = false := htw c0 (List.mem_cons_self _ _)
    cases hdrop : l.dropWhile isWs with
    | nil =>
      rw [collapseF, hdrop] at h
      have hws : ∀ c ∈ l, isWs c = true := List.dropWhile_eq_nil_iff.mp hdrop
      rw [containsSub_allws c0 t2 (breakRun l) hc0 (breakRun_all_ws l hws)] at h
      cases h
    | cons d r =>
      rw [collapseF, hdrop] at h
      dsimp only at h
      have htwws : ∀ c ∈ l.takeWhile isWs, isWs c = true :=
        fun c hc => List.mem_takeWhile_imp hc
      have hBws := breakRun_all_ws (l.takeWhile isWs) htwws
      have h2 : containsSub (c0 :: t2) (d :: collapseF f r) = true :=
        containsSub_allws_append c0 t2 _ _ hc0 hBws h
      have hlen : r.length ≤ f := by
        have := length_dropWhile_tail l d r hdrop
        omega
      have hsplit : l = l.takeWhile isWs ++ d :: r := split_of_dropWhile l d r hdrop
      rw [containsSub, Bool.or_eq_true_iff] at h2
      have hgoal : containsSub (c0 :: t2) (d :: r) = true := by
        rcases h2 with h2 | h2
        · rw [isPre] at h2
          by_cases hcd : c0 = d
          · rw [if_pos hcd] at h2
            have hpre : isPre (c0 :: t2) (d :: r) = true := by
              rw [isPre, if_pos hcd]
              cases ht2 : t2 with
              | nil => rfl
              | cons a b =>
                rw [ht2] at h2
                exact ht2 ▸ collapseF_isPre_rev f (a :: b) r (by simp)
                  (fun c hc => htw c (ht2 ▸ List.mem_cons_of_mem c0 hc)) hlen h2
            exact isPre_containsSub _ _ hpre
          · rw [if_neg hcd] at h2
            cases h2
        · have := ih (c0 :: t2) r (by simp) htw hlen h2
          rw [containsSub, this, Bool.or_true]
      calc containsSub (c0 :: t2) l
          = containsSub (c0 :: t2) (l.takeWhile isWs ++ d :: r) := by rw [← hsplit]
        _ = true := containsSub_append_right _ _ _ hgoal

/- ## Trim idempotence -/

theorem dropWhile_cons_false {p : Char → Bool} {c : Char} (x : Str)
    (hc : p c = false) : (c :: x).dropWhile p = c :: x := by
  rw [List.dropWhile_cons, hc]
  simp

theorem exists_dropWhile_append {p : Char → Bool} {a : Char} (ha : p a = false) :
    ∀ x : Str, ∃ D, (x ++ [a]).dropWhile p = D ++ [a] := by
  intro x
  induction x with
  | nil =>
    exact ⟨[], dropWhile_cons_false [] ha⟩
  | cons c x2 ih =>
    by_cases hc : p c = true
    · obtain ⟨D, hD⟩ := ih
      refine ⟨D, ?_⟩
      rw [List.cons_append, List.dropWhile_cons, hc]
      simpa using hD
    · refine ⟨c :: x2, ?_⟩
      rw [List.cons_append, List.dropWhile_cons]
      simp [hc]

theorem trimStr_trimStr (l : Str) : trimStr (trimStr l) = trimStr l := by
  cases hA : l.dropWhile isWs with
  | nil =>
    have h1 : trimStr l = [] := by
      unfold trimStr
      rw [hA]
      rfl
    rw [h1]
    rfl
  | cons a A2 =>
    have ha : isWs a = false := dropWhile_head_false hA
    obtain ⟨D, hD⟩ := exists_dropWhile_append (p := isWs) ha A2.reverse
    have hCform : (l.dropWhile isWs).reverse.dropWhile isWs = D ++ [a] := by
      rw [hA, List.reverse_cons]
      exact hD
    have htrim : trimStr l = a :: D.reverse := by
      unfold trimStr
      rw [hCform, List.reverse_append]
      rfl
    have hChead : (D ++ [a]).dropWhile isWs = D ++ [a] := by
      cases hDc : D with
      | nil =>
        rw [List.nil_append]
        exact dropWhile_cons_false [] ha
      | cons d D2 =>
        have hd : isWs d = false := by
          apply dropWhile_head_false (p := isWs) (l := (l.dropWhile isWs).reverse)
          rw [hCform, hDc, List.cons_append]
        rw [List.cons_append]
        exact dropWhile_cons_false _ hd
    rw [htrim]
    unfold trimStr
    rw [dropWhile_cons_false _ ha, List.reverse_cons, List.reverse_reverse, hChead,
      List.reverse_append]
    rfl

/- ## Claim theorems about the normalizer (idempotence) -/

theorem removeBadges_id (s : Str) (h : containsSub (S "![") s = false) :
    removeBadges s = s :=
  scanRemoveF_id badgeMatchAt (S "[![") badgeMatchAt_trigger s.length s
    (containsSub_badge_false s h)

theorem removeShields_id (s : Str) (h : containsSub (S "![") s = false) :
    removeShields s = s :=
  scanRemoveF_id shieldsMatchAt (S "![") shieldsMatchAt_trigger s.length s h

theorem removeComments_id (s : Str) (h : containsSub (S "<!--") s = false) :
    removeComments s = s :=
  scanRemoveF_id commentMatchAt (S "<!--") commentMatchAt_trigger s.length s h

theorem clean_no_trigger (t s : Str) (ht : t ≠ []) (htw : ∀ c ∈ t, isWs c = false)
    (h : containsSub t s = false) :
    containsSub t (trimStr (collapseNewlines s)) = false := by
  cases hcs : containsSub t (trimStr (collapseNewlines s)) with
  | false => rfl
  | true =>
    exfalso
    obtain ⟨a, b, hmid⟩ := trim_middle (collapseNewlines s)
    have h2 : containsSub t (collapseNewlines s) = true := by
      rw [hmid]
      exact containsSub_middle t a _ b hcs
    have h3 : containsSub t s = true :=
      collapseF_containsSub_rev s.length t s ht htw (le_refl _) h2
    rw [h3] at h
    cases h

/-- C4 (counterexample): `cleanContent` is not idempotent.  On the input
below the single comment-removal pass splices the surviving fragments into
a fresh HTML comment, which only the second pass removes: one pass yields
a non-empty string while two passes yield the empty string. -/
theorem cleanReadmeContent_not_idempotent :
    cleanReadmeContent (cleanReadmeContent (S "<!-<!-- x -->- y -->"))
      ≠ cleanReadmeContent (S "<!-<!-- x -->- y -->") := by decide

/-- C4 (amended): `cleanContent` is pure but only conditionally
idempotent: a pass can splice removed-text boundaries into a new badge or
HTML-comment match.  On every string containing neither the image opener
"![" (which also rules out the badge opener "[![") nor the comment opener
"<!--", all three removal passes are the identity on both applications,
the blank-line collapse is idempotent, and the final trim is idempotent,
so `cleanContent(cleanContent(x)) = cleanContent(x)`. -/
theorem cleanReadmeContent_idem_restricted (s : Str)
    (h1 : containsSub (S "![") s = false)
    (h2 : containsSub (S "<!--") s = false) :
    cleanReadmeContent (cleanReadmeContent s) = cleanReadmeContent s := by
  by_cases hemp : s.isEmpty = true
  · have hnil : s = [] := by
      cases s with
      | nil => rfl
      | cons a b => simp [List.isEmpty] at hemp
    rw [hnil]
    rfl
  · have hclean : cleanReadmeContent s = trimStr (collapseNewlines s) := by
      unfold cleanReadmeContent
      rw [if_neg hemp, removeBadges_id s h1, removeShields_id s h1,
        removeComments_id s h2]
    have hy1 : containsSub (S "![") (trimStr (collapseNewlines s)) = false :=
      clean_no_trigger _ s (by decide) (by decide) h1
    have hy2 : containsSub (S "<!--") (trimStr (collapseNewlines s)) = false :=
      clean_no_trigger _ s (by decide) (by decide) h2
    rw [hclean]
    by_cases hyemp : (trimStr (collapseNewlines s)).isEmpty = true
    · have hnil : trimStr (collapseNewlines s) = [] := by
        cases hc : trimStr (collapseNewlines s) with
        | nil => rfl
        | cons a b =>
          rw [hc] at hyemp
          simp [List.isEmpty] at hyemp
      rw [hnil]
      rfl
    · have hclean2 : cleanReadmeContent (trimStr (collapseNewlines s))
          = trimStr (collapseNewlines (trimStr (collapseNewlines s))) := by
        unfold cleanReadmeContent
        rw [if_neg hyemp, removeBadges_id _ hy1, removeShields_id _ hy1,
          removeComments_id _ hy2]
      have hflat : WsFlat (trimStr (collapseNewlines s)) :=
        WsFlat_trim _ (collapseF_WsFlat s.length s (le_refl _))
      have hcfix : collapseNewlines (trimStr (collapseNewlines s))
          = trimStr (collapseNewlines s) :=
        collapseF_fix_of_WsFlat _ _ hflat (le_refl _)
      rw [hclean2, hcfix]
      exact trimStr_trimStr (collapseNewlines s)

/-- C4 (witness for the amended theorem): a badge- and comment-free string
with a collapsible blank-line run and trailing whitespace. -/
theorem cleanReadmeContent_idem_restricted_witness :
    containsSub (S "![") (S "hello\n\n\n\nworld  ") = false ∧
    containsSub (S "<!--") (S "hello\n\n\n\nworld  ") = false ∧
    cleanReadmeContent (cleanReadmeContent (S "hello\n\n\n\nworld  "))
      = cleanReadmeContent (S "hello\n\n\n\nworld  ") :=
  ⟨by decide, by decide, cleanReadmeContent_idem_restricted _ (by decide) (by decide)⟩
